import Mathlib

/-!
# A single-slot TTL cache (`cache.go`)

A shallow embedding of the Go package `cache`: the `Config` policy built by
`NewConfig`, and the `Cache` cell with `New`, `Get` and `Invalidate`.

Modelling conventions

* A `time.Duration` is an `Int` count of nanoseconds; the one arithmetic
  operation the package performs on it (`ttl += ...`) wraps at 64 bits.
* A `time.Time` is the instant it denotes, an `Int` count of nanoseconds since
  the Unix epoch.  `After` is strict order on instants and `Add` moves an
  instant by a duration, exactly: what package time does when a sum leaves the
  range of `time.Time` (some 292 billion years either side of year 1, while a
  duration spans 292 years) is not modelled.  `Time.representable` delimits the
  instants a `time.Time` can hold; `Time.Unix` is `time.Unix`.
* `time.Now()` reads a clock.  The clock is the stream of readings it will
  return, carried in a `World` together with the number of readings taken so
  far, so every call of `time.Now()` in the source is one `World.Now` here.
* The producer passed to `Get` is an arbitrary effectful function: it acts on
  an environment `σ` (also carried in the `World`) and returns a value and an
  error, either of which may be `nil` (`none`).
* The package-level random source `r` is a `Rand`, threaded through
  `NewConfig`.
* `Cache.Get` and `Cache.Invalidate` are the calls made one at a time:
  `lock.Lock()` / `Unlock()` have no effect on a single thread of calls and are
  left as comments there.
* Calls made at the same time are goroutines of a `Sys`: each runs one source
  line at a time, in any interleaving, `c.lock` being a mutex.  A goroutine
  running alone does what `Cache.Get` / `Cache.Invalidate` do (`lone_Get`,
  `lone_Invalidate`).
-/

namespace cache

/-! ## Durations, instants, the clock and the random source -/

/-- A `time.Duration`: a signed number of nanoseconds. -/
abbrev Duration := Int

/-- A `time.Time`, as the instant it denotes in nanoseconds since the Unix epoch. -/
abbrev Time := Int

/-- Two's complement wrap-around of an integer to the `int64` range. -/
def wrapInt64 (x : Int) : Int := (x + 2 ^ 63) % 2 ^ 64 - 2 ^ 63

/-- The values an `int64` (hence a `time.Duration`) can hold. -/
def Duration.inRange (d : Duration) : Prop := -(2 ^ 63) ≤ d ∧ d ≤ 2 ^ 63 - 1

instance (d : Duration) : Decidable (Duration.inRange d) :=
  inferInstanceAs (Decidable (-(2 ^ 63) ≤ d ∧ d ≤ 2 ^ 63 - 1))

/-- The method `t.After(u)`: the instant `t` is strictly after `u`. -/
def Time.After (t u : Time) : Prop := u < t

instance (t u : Time) : Decidable (Time.After t u) :=
  inferInstanceAs (Decidable (u < t))

/-- The method `t.Add(d)`. -/
def Time.Add (t : Time) (d : Duration) : Time := t + d

/-- The function `time.Unix(sec, nsec)`: `sec` seconds and `nsec` nanoseconds after the epoch. -/
def Time.Unix (sec nsec : Int) : Time := sec * 1000000000 + nsec

/-- Seconds from year 1 (the zero of `time.Time`) to the Unix epoch, `unixToInternal` in package time. -/
def unixToInternal : Int := 62135596800

/-- The latest instant a `time.Time` can hold: second `2^63 - 1` counted from year 1, nanosecond `999999999`. -/
def Time.max : Time := Time.Unix (2 ^ 63 - 1 - unixToInternal) 999999999

/-- The earliest instant a `time.Time` can hold: second `-2^63` counted from year 1, nanosecond `0`. -/
def Time.min : Time := Time.Unix (-(2 ^ 63) - unixToInternal) 0

/-- The instants a `time.Time` can hold. -/
def Time.representable (t : Time) : Prop := Time.min ≤ t ∧ t ≤ Time.max

instance (t : Time) : Decidable (Time.representable t) :=
  inferInstanceAs (Decidable (Time.min ≤ t ∧ t ≤ Time.max))

/-- The state outside the cache: the clock behind `time.Now()` (`clock k` is the `k`-th reading
it returns, `reads` the number of readings taken so far) and the environment `env` the
producers act on. -/
structure World (σ : Type) where
  clock : Nat → Time
  reads : Nat
  env : σ

/-- The function `time.Now()`: the next clock reading. -/
def World.Now {σ : Type} (w : World σ) : Time × World σ :=
  (w.clock w.reads, { w with reads := w.reads + 1 })

/-- The random source `r` of the package: `raw k` is the raw value behind its `k`-th draw
and `pos` the number of draws made so far. -/
structure Rand where
  raw : Nat → Nat
  pos : Nat

/-- The method `r.Int63n(n)` for `n > 0`: a draw in `[0, n)`. -/
def Rand.Int63n (r : Rand) (n : Int) : Int × Rand :=
  ((r.raw r.pos : Int) % n, { r with pos := r.pos + 1 })

/-! ## Config -/

/-- The struct `Config`. -/
structure Config where
  ttl : Duration
deriving DecidableEq, Repr

/-- The constant `NoExpiration`. -/
def NoExpiration : Duration := -1

/-- The function `NewConfig(ttl, jitter)`. -/
def NewConfig (ttl jitter : Duration) (r : Rand) : Config × Rand :=
  if ttl ≠ NoExpiration ∧ jitter > 0 then
    let d := r.Int63n jitter
    ({ ttl := wrapInt64 (ttl + d.1) }, d.2)
  else
    ({ ttl := ttl }, r)

/-- The duration `time.Hour`. -/
def Hour : Duration := 3600000000000

/-- The duration `time.Minute`. -/
def Minute : Duration := 60000000000

/-- The duration `time.Second`. -/
def Second : Duration := 1000000000

/-- The duration `time.Millisecond`. -/
def Millisecond : Duration := 1000000

/-- The function `DefaultConfig()`. -/
def DefaultConfig (r : Rand) : Config × Rand := NewConfig Hour (Minute * 5) r

/-- The method `(c *Config) expiresAt()`. -/
def Config.expiresAt {σ : Type} (c : Config) (w : World σ) : Time × World σ :=
  if c.ttl = NoExpiration then
    (Time.Unix (2 ^ 63 - 62135596801) 999999999, w)
  else
    let n := w.Now
    (n.1.Add c.ttl, n.2)

/-! ## Cache -/

/-- The struct `Cache`; `value` is `none` for a nil interface value. -/
structure Cache (V : Type) where
  value : Option V
  expiresAt : Time
  config : Config

/-- The function `New(config)`. -/
def New {V σ : Type} (config : Config) (w : World σ) : Cache V × World σ :=
  let n := w.Now
  ({ value := none, expiresAt := n.1, config := config }, n.2)

/-- A producer `func() (interface{}, error)`: run in environment `s` it returns a value and
an error (each possibly nil) and leaves the environment changed. -/
abbrev Producer (V E σ : Type) := σ → (Option V × Option E) × σ

/-- What a call of `Get` leaves behind: the two results, the cell and the world. -/
structure GetResult (V E σ : Type) where
  value : Option V
  err : Option E
  cache : Cache V
  world : World σ

/-- The method `(c *Cache) Get(initValue)`. -/
def Cache.Get {V E σ : Type} (c : Cache V) (initValue : Producer V E σ) (w : World σ) :
    GetResult V E σ :=
  let n1 := w.Now
  if c.expiresAt.After n1.1 then
    { value := c.value, err := none, cache := c, world := n1.2 }
  else
    -- c.lock.Lock(); defer c.lock.Unlock()
    let n2 := n1.2.Now
    if c.expiresAt.After n2.1 then
      { value := c.value, err := none, cache := c, world := n2.2 }
    else
      let r := initValue n2.2.env
      let w3 : World σ := { n2.2 with env := r.2 }
      match r.1.2 with
      | some e => { value := none, err := some e, cache := c, world := w3 }
      | none =>
        let x := c.config.expiresAt w3
        { value := r.1.1, err := none,
          cache := { c with value := r.1.1, expiresAt := x.1 }, world := x.2 }

/-- The method `(c *Cache) Invalidate()`. -/
def Cache.Invalidate {V σ : Type} (c : Cache V) (w : World σ) : Cache V × World σ :=
  -- c.lock.Lock()
  let n := w.Now
  ({ c with expiresAt := n.1 }, n.2)
  -- c.lock.Unlock()

/-! ## Observing producer invocations -/

/-- The producer `p` with a tally: the same results and the same effect on the environment,
and every invocation adds one to a counter kept next to the environment. -/
def counted {V E σ : Type} (p : Producer V E σ) : Producer V E (σ × Nat) :=
  fun s => ((p s.1).1, ((p s.1).2, s.2 + 1))

/-- The number of times `c.Get(p)` invokes `p` when run in world `w`. -/
def Cache.invocations {V E σ : Type} (c : Cache V) (p : Producer V E σ) (w : World σ) : Nat :=
  (c.Get (counted p) { clock := w.clock, reads := w.reads, env := (w.env, 0) }).world.env.2

/-- A run of consecutive `Get` calls on one cell, one per producer of the list, each in the
world the previous one left: the `(value, error)` results in order, and the final cell and
world. -/
def Cache.GetAll {V E σ : Type} (c : Cache V) :
    List (Producer V E σ) → World σ → List (Option V × Option E) × Cache V × World σ
  | [], w => ([], c, w)
  | p :: ps, w =>
    let g := c.Get p w
    let rest := Cache.GetAll g.cache ps g.world
    ((g.value, g.err) :: rest.1, rest.2)

/-- One call on the cell: `Get` with a producer, or `Invalidate`. -/
inductive Op (V E σ : Type) where
  | get (initValue : Producer V E σ)
  | invalidate

/-- One call made on the cell: what a `Get` returned (nothing for `Invalidate`), and the cell
and the world it leaves. -/
def Cache.apply {V E σ : Type} (c : Cache V) :
    Op V E σ → World σ → Option (Option V × Option E) × Cache V × World σ
  | Op.get p, w => (some ((c.Get p w).value, (c.Get p w).err), (c.Get p w).cache, (c.Get p w).world)
  | Op.invalidate, w => (none, (c.Invalidate w).1, (c.Invalidate w).2)

/-- A run of consecutive calls on one cell, each in the world the previous one left: the
results of the `Get` calls in order, and the final cell and world. -/
def Cache.run {V E σ : Type} :
    Cache V → List (Op V E σ) → World σ → List (Option V × Option E) × Cache V × World σ
  | c, [], w => ([], c, w)
  | c, op :: ops, w =>
    ((c.apply op w).1.toList ++ (Cache.run (c.apply op w).2.1 ops (c.apply op w).2.2).1,
      (Cache.run (c.apply op w).2.1 ops (c.apply op w).2.2).2)

/-- The producers handed to the `Get` calls of a run, in order. -/
def producersOf {V E σ : Type} : List (Op V E σ) → List (Producer V E σ)
  | [] => []
  | Op.get p :: ops => p :: producersOf ops
  | Op.invalidate :: ops => producersOf ops

/-- The producers of a list invoked one after the other, each exactly once, starting from an
environment: what each returned, in order, and the environment left at the end. -/
def invokeEach {V E σ : Type} : List (Producer V E σ) → σ → List (Option V × Option E) × σ
  | [], s => ([], s)
  | p :: ps, s => ((p s).1 :: (invokeEach ps (p s).2).1, (invokeEach ps (p s).2).2)

/-- What lines 71-76 of `Get` make of the pair the producer returned: the error with no value,
or the value with no error. -/
def outcome {V E : Type} (r : Option V × Option E) : Option V × Option E :=
  match r.2 with
  | some e => (none, some e)
  | none => (r.1, none)

/-- The call `op` with its producer, if any, replaced by the counting one. -/
def Op.counted {V E σ : Type} : Op V E σ → Op V E (σ × Nat)
  | Op.get p => Op.get (cache.counted p)
  | Op.invalidate => Op.invalidate

/-- The producer `p` with a log: the same results and the same effect on the environment, and
every invocation puts the pair it returned at the head of a log kept next to the environment
(most recent invocation first). -/
def logged {V E σ : Type} (p : Producer V E σ) :
    Producer V E (σ × List (Option V × Option E)) :=
  fun s => ((p s.1).1, ((p s.1).2, (p s.1).1 :: s.2))

/-- The call `op` with its producer, if any, replaced by the logging one. -/
def Op.logged {V E σ : Type} : Op V E σ → Op V E (σ × List (Option V × Option E))
  | Op.get p => Op.get (cache.logged p)
  | Op.invalidate => Op.invalidate

/-- The value returned by the most recent successful invocation of a log (most recent first):
the value of the first pair whose error is nil, if there is one. -/
def lastSuccess {V E : Type} : List (Option V × Option E) → Option (Option V)
  | [] => none
  | r :: rs =>
    match r.2 with
    | none => some r.1
    | some _ => lastSuccess rs

/-- A cell built by `New` and then taken through a run of calls whose producers log their
invocations, the log starting empty. -/
def runLogged {V E σ : Type} (config : Config) (w0 : World σ) (ops : List (Op V E σ)) :
    List (Option V × Option E) × Cache V × World (σ × List (Option V × Option E)) :=
  (@New V (σ × List (Option V × Option E)) config
      { clock := w0.clock, reads := w0.reads, env := (w0.env, []) }).1.run (ops.map Op.logged)
    (@New V (σ × List (Option V × Option E)) config
      { clock := w0.clock, reads := w0.reads, env := (w0.env, []) }).2

/-- The provenance invariant of a cell `c` in a world whose environment carries the log of the
producer invocations made so far: with no success logged the cell is empty and stale, otherwise
it holds the value of the most recent success. -/
def Provenance {V E σ : Type} (c : Cache V) (w : World (σ × List (Option V × Option E))) :
    Prop :=
  (lastSuccess w.env.2 = none → c.value = none ∧ c.expiresAt ≤ w.clock w.reads) ∧
  (∀ v, lastSuccess w.env.2 = some v → c.value = v)

/-! ## Goroutines: calls on one cell interleaved

Several goroutines each make one call on the same cell. A goroutine advances one source line
at a time and any goroutine may advance next; `c.lock` is a mutex, so `Lock()` waits while
another goroutine holds it. -/

/-- Where a goroutine stands in its call. -/
inductive Pc (V E : Type) where
  /-- About to run the first line of the call: line 61 of `Get`, line 81 of `Invalidate`. -/
  | entry
  /-- In `Get`, the check of line 61 found the cell stale: about to run `c.lock.Lock()`. -/
  | atLock
  /-- In `Get`, holding the lock: about to run the check of line 67. -/
  | recheck
  /-- In `Get`, holding the lock: `initValue()` of line 70 has been called and not returned. -/
  | inProducer
  /-- In `Get`, holding the lock: `initValue()` has returned `r`, about to run line 71. -/
  | returned (r : Option V × Option E)
  /-- In `Get`, holding the lock: `c.value` is written, about to run line 75. -/
  | stored (v : Option V)
  /-- In `Get`, holding the lock: about to run `return value, nil` and the deferred unlock. -/
  | leaving (v : Option V)
  /-- In `Invalidate`, holding the lock: about to run line 82. -/
  | holding
  /-- In `Invalidate`, holding the lock: about to run `c.lock.Unlock()`. -/
  | unlocking
  /-- The call has returned `(value, err)` (`Invalidate` returns nothing: both `nil`). -/
  | done (value : Option V) (err : Option E)
deriving DecidableEq

/-- The positions at which a goroutine holds `c.lock`. -/
def Pc.holdsLock {V E : Type} : Pc V E → Bool
  | Pc.recheck => true
  | Pc.inProducer => true
  | Pc.returned _ => true
  | Pc.stored _ => true
  | Pc.leaving _ => true
  | Pc.holding => true
  | Pc.unlocking => true
  | _ => false

/-- A goroutine: the call it makes and where it stands in it. -/
structure Goroutine (V E σ : Type) where
  call : Op V E σ
  pc : Pc V E

/-- The cell shared by the goroutines, the goroutine holding `c.lock` if any, the world, and
the goroutines. -/
structure Sys (V E σ : Type) where
  cell : Cache V
  holder : Option Nat
  world : World σ
  routines : Nat → Goroutine V E σ

/-- Goroutine `i` moves to position `pc`. -/
def Sys.goto {V E σ : Type} (s : Sys V E σ) (i : Nat) (pc : Pc V E) : Sys V E σ :=
  { s with routines := Function.update s.routines i { call := (s.routines i).call, pc := pc } }

/-- Goroutine `i` runs its next line. A goroutine waiting for the lock, or done, stays put. -/
def Sys.step {V E σ : Type} (s : Sys V E σ) (i : Nat) : Sys V E σ :=
  match (s.routines i).call, (s.routines i).pc with
  | Op.get _, Pc.entry =>
    -- if c.expiresAt.After(time.Now()) { return c.value, nil }
    if s.cell.expiresAt.After s.world.Now.1 then
      { s.goto i (Pc.done s.cell.value none) with world := s.world.Now.2 }
    else
      { s.goto i Pc.atLock with world := s.world.Now.2 }
  | Op.get _, Pc.atLock =>
    -- c.lock.Lock(); defer c.lock.Unlock()
    match s.holder with
    | none => { s.goto i Pc.recheck with holder := some i }
    | some _ => s
  | Op.get _, Pc.recheck =>
    -- if c.expiresAt.After(time.Now()) { return c.value, nil }
    if s.cell.expiresAt.After s.world.Now.1 then
      { s.goto i (Pc.done s.cell.value none) with world := s.world.Now.2, holder := none }
    else
      { s.goto i Pc.inProducer with world := s.world.Now.2 }
  | Op.get initValue, Pc.inProducer =>
    -- value, err := initValue()
    { s.goto i (Pc.returned (initValue s.world.env).1) with
      world := { s.world with env := (initValue s.world.env).2 } }
  | Op.get _, Pc.returned r =>
    -- if err != nil { return nil, err }; c.value = value
    match r.2 with
    | some e => { s.goto i (Pc.done none (some e)) with holder := none }
    | none => { s.goto i (Pc.stored r.1) with cell := { s.cell with value := r.1 } }
  | Op.get _, Pc.stored v =>
    -- c.expiresAt = c.config.expiresAt()
    { s.goto i (Pc.leaving v) with
      cell := { s.cell with expiresAt := (s.cell.config.expiresAt s.world).1 },
      world := (s.cell.config.expiresAt s.world).2 }
  | Op.get _, Pc.leaving v =>
    -- return value, nil
    { s.goto i (Pc.done v none) with holder := none }
  | Op.invalidate, Pc.entry =>
    -- c.lock.Lock()
    match s.holder with
    | none => { s.goto i Pc.holding with holder := some i }
    | some _ => s
  | Op.invalidate, Pc.holding =>
    -- c.expiresAt = time.Now()
    { s.goto i Pc.unlocking with
      cell := { s.cell with expiresAt := s.world.Now.1 }, world := s.world.Now.2 }
  | Op.invalidate, Pc.unlocking =>
    -- c.lock.Unlock()
    { s.goto i (Pc.done none none) with holder := none }
  | _, _ => s

/-- An interleaving: the goroutines named by the schedule run one line each, in that order. -/
def Sys.run {V E σ : Type} (s : Sys V E σ) : List Nat → Sys V E σ
  | [] => s
  | i :: sched => Sys.run (s.step i) sched

/-- The start: nobody holds the lock and goroutine `i` is about to make the call `calls i`. -/
def Sys.init {V E σ : Type} (c : Cache V) (w : World σ) (calls : Nat → Op V E σ) :
    Sys V E σ :=
  { cell := c, holder := none, world := w,
    routines := fun i => { call := calls i, pc := Pc.entry } }

/-- The lock discipline: a goroutine is at a position that holds the lock exactly when it is
the holder of the lock. -/
def Sys.LockInv {V E σ : Type} (s : Sys V E σ) : Prop :=
  ∀ j, (s.routines j).pc.holdsLock = true ↔ s.holder = some j

/-- A producer without side effects that returns `(n, nil)`. -/
def succeedWith (n : Nat) : Producer Nat String Unit := fun s => ((some n, none), s)

/-- A random source whose every raw value is `n`. -/
def constRand (n : Nat) : Rand := { raw := fun _ => n, pos := 0 }

/-- The two goroutines of `TestLock`: goroutine `0` calls `Get` with a producer returning `1`,
every other goroutine calls `Get` with a producer returning `2`; the producers count their
invocations. The cell was built by `New(DefaultConfig())` and the clock stands still. -/
def testLock : Sys Nat String (Unit × Nat) :=
  Sys.init (@New Nat (Unit × Nat) (DefaultConfig (constRand 0)).1 ⟨fun _ => 0, 0, ((), 0)⟩).1
    ⟨fun _ => 0, 1, ((), 0)⟩
    (fun i => if i = 0 then Op.get (counted (succeedWith 1))
      else Op.get (counted (succeedWith 2)))

/-! ## Basic facts -/

theorem Time.max_eq : Time.Unix (2 ^ 63 - 62135596801) 999999999 = Time.max := by
  simp [Time.max, Time.Unix, unixToInternal]

theorem wrapInt64_of_inRange (x : Int) (h : Duration.inRange x) : wrapInt64 x = x := by
  unfold Duration.inRange at h
  unfold wrapInt64
  dsimp only [Duration, Time] at *
  omega

/-- A draw of `Int63n(n)` lies in `[0, n)`. -/
theorem Int63n_range (r : Rand) (n : Int) (hn : 0 < n) :
    0 ≤ (r.Int63n n).1 ∧ (r.Int63n n).1 < n :=
  ⟨Int.emod_nonneg _ (ne_of_gt hn), Int.emod_lt_of_pos _ hn⟩

/-- Every value of `[0, n)` is the draw of some random source. -/
theorem Int63n_onto (n d : Int) (h0 : 0 ≤ d) (hd : d < n) :
    ((constRand d.toNat).Int63n n).1 = d := by
  simp only [Rand.Int63n, constRand, Int.toNat_of_nonneg h0]
  exact Int.emod_eq_of_lt h0 hd

/-! ## The policy -/

theorem NewConfig_NoExpiration (j : Duration) (r : Rand) :
    NewConfig NoExpiration j r = ({ ttl := NoExpiration }, r) := by
  simp [NewConfig]

theorem NewConfig_jitter (ttl jitter : Duration) (r : Rand)
    (h1 : ttl ≠ NoExpiration) (h2 : 0 < jitter) :
    NewConfig ttl jitter r =
      ({ ttl := wrapInt64 (ttl + (r.Int63n jitter).1) }, (r.Int63n jitter).2) := by
  simp [NewConfig, h1, h2]

theorem expiresAt_NoExpiration {σ : Type} (c : Config) (w : World σ)
    (h : c.ttl = NoExpiration) : c.expiresAt w = (Time.max, w) := by
  unfold Config.expiresAt
  rw [if_pos h, Time.max_eq]

theorem expiresAt_finite {σ : Type} (c : Config) (w : World σ)
    (h : c.ttl ≠ NoExpiration) :
    c.expiresAt w =
      ((w.clock w.reads).Add c.ttl, { clock := w.clock, reads := w.reads + 1, env := w.env }) := by
  unfold Config.expiresAt
  rw [if_neg h]
  rfl

/-- The environment is never touched by `Config.expiresAt`. -/
theorem expiresAt_env {σ : Type} (c : Config) (w : World σ) :
    (c.expiresAt w).2.env = w.env := by
  unfold Config.expiresAt
  split <;> simp [World.Now]

/-- For a non-negative ttl whose sum with the jitter bound fits an `int64`, the policy expires
`ttl` plus the draw after the clock reading. -/
theorem NewConfig_offset {σ : Type} (ttl jitter : Duration) (r : Rand) (w : World σ)
    (httl : 0 ≤ ttl) (hj : 0 < jitter) (hrange : ttl + jitter ≤ 2 ^ 63 - 1) :
    ((NewConfig ttl jitter r).1.expiresAt w).1 - w.clock w.reads =
      ttl + (r.Int63n jitter).1 := by
  obtain ⟨hd0, hd1⟩ := Int63n_range r jitter hj
  have hne : ttl ≠ NoExpiration := by
    intro h; rw [h] at httl; exact absurd httl (by decide)
  have h0 : (0 : Int) ≤ ttl + (r.Int63n jitter).1 := Int.add_nonneg httl hd0
  have hin : Duration.inRange (ttl + (r.Int63n jitter).1) := by
    unfold Duration.inRange
    dsimp only [Duration, Time] at *
    constructor <;> omega
  have hne2 : ttl + (r.Int63n jitter).1 ≠ NoExpiration := by
    intro h
    rw [h] at h0; exact absurd h0 (by decide)
  rw [NewConfig_jitter ttl jitter r hne hj, wrapInt64_of_inRange _ hin]
  simp only [Config.expiresAt, if_neg hne2, World.Now, Time.Add]
  dsimp only [Duration, Time] at *
  omega

/-! ## The cell: one call of `Get` -/

/-- Under a monotone clock a cell found stale at the first check is stale at the re-check. -/
theorem stale_next {σ : Type} {V : Type} (c : Cache V) (w : World σ)
    (hstale : ¬ c.expiresAt.After (w.clock w.reads)) (hmono : Monotone w.clock) :
    ¬ c.expiresAt.After (w.clock (w.reads + 1)) := by
  have h := hmono (Nat.le_succ w.reads)
  simp only [Time.After, not_lt] at hstale ⊢
  exact le_trans hstale h

/-- Fast path: a hit consumes one clock reading and nothing else. -/
theorem hit_unfold {V E σ : Type} (c : Cache V) (p : Producer V E σ) (w : World σ)
    (h : c.expiresAt.After (w.clock w.reads)) :
    c.Get p w = { value := c.value, err := none, cache := c,
                  world := { clock := w.clock, reads := w.reads + 1, env := w.env } } := by
  simp [Cache.Get, World.Now, h]

/-- Slow path with a succeeding producer: the cell is stale at both checks. -/
theorem Get_stale_ok {V E σ : Type} (c : Cache V) (p : Producer V E σ) (w : World σ)
    (h1 : ¬ c.expiresAt.After (w.clock w.reads))
    (h2 : ¬ c.expiresAt.After (w.clock (w.reads + 1)))
    (hp : (p w.env).1.2 = none) :
    c.Get p w =
      { value := (p w.env).1.1, err := none,
        cache := { c with value := (p w.env).1.1,
                          expiresAt := (c.config.expiresAt
                            { clock := w.clock, reads := w.reads + 2, env := (p w.env).2 }).1 },
        world := (c.config.expiresAt
                    { clock := w.clock, reads := w.reads + 2, env := (p w.env).2 }).2 } := by
  simp [Cache.Get, World.Now, h1, h2, hp]

/-- Slow path with a failing producer: the cell is stale at both checks. -/
theorem Get_stale_err {V E σ : Type} (c : Cache V) (p : Producer V E σ) (w : World σ) (e : E)
    (h1 : ¬ c.expiresAt.After (w.clock w.reads))
    (h2 : ¬ c.expiresAt.After (w.clock (w.reads + 1)))
    (hp : (p w.env).1.2 = some e) :
    c.Get p w =
      { value := none, err := some e, cache := c,
        world := { clock := w.clock, reads := w.reads + 2, env := (p w.env).2 } } := by
  simp [Cache.Get, World.Now, h1, h2, hp]

/-- On the slow path the producer is invoked exactly once. -/
theorem invocations_stale {V E σ : Type} (c : Cache V) (p : Producer V E σ) (w : World σ)
    (h1 : ¬ c.expiresAt.After (w.clock w.reads))
    (h2 : ¬ c.expiresAt.After (w.clock (w.reads + 1))) :
    c.invocations p w = 1 := by
  unfold Cache.invocations
  cases hp : (p w.env).1.2 with
  | none =>
    rw [Get_stale_ok c (counted p) _ h1 h2 (by simpa [counted] using hp)]
    simp [expiresAt_env, counted]
  | some e =>
    rw [Get_stale_err c (counted p) _ e h1 h2 (by simpa [counted] using hp)]
    simp [counted]

/-- On a hit the producer is not invoked. -/
theorem invocations_hit {V E σ : Type} (c : Cache V) (p : Producer V E σ) (w : World σ)
    (h : c.expiresAt.After (w.clock w.reads)) :
    c.invocations p w = 0 := by
  simp [Cache.invocations, Cache.Get, World.Now, h]

/-- A successful refresh of a cell stale at a monotone clock, in full. -/
theorem refresh_unfold {V E σ : Type} (c : Cache V) (p : Producer V E σ) (w : World σ)
    (v : Option V)
    (hstale : ¬ c.expiresAt.After (w.clock w.reads)) (hmono : Monotone w.clock)
    (hp : (p w.env).1 = (v, none)) :
    c.Get p w =
      { value := v, err := none,
        cache := { value := v, config := c.config,
                   expiresAt := (c.config.expiresAt
                      { clock := w.clock, reads := w.reads + 2, env := (p w.env).2 }).1 },
        world := (c.config.expiresAt
                    { clock := w.clock, reads := w.reads + 2, env := (p w.env).2 }).2 } := by
  have hp1 : (p w.env).1.1 = v := by rw [hp]
  rw [Get_stale_ok c p w hstale (stale_next c w hstale hmono) (by rw [hp]), hp1]

/-- A cell whose `expiresAt` is not after the clock reading has its producer invoked. -/
theorem invocations_of_le {V E σ : Type} (c : Cache V) (p : Producer V E σ) (w : World σ)
    (hle : c.expiresAt ≤ w.clock w.reads) (hmono : Monotone w.clock) :
    c.invocations p w = 1 :=
  have hst : ¬ c.expiresAt.After (w.clock w.reads) := not_lt.mpr hle
  invocations_stale c p w hst (stale_next c w hst hmono)

/-- Re-check hit: stale at the first check, fresh at the second. The held value is served and
two clock readings are consumed. -/
theorem recheck_unfold {V E σ : Type} (c : Cache V) (p : Producer V E σ) (w : World σ)
    (h1 : ¬ c.expiresAt.After (w.clock w.reads))
    (h2 : c.expiresAt.After (w.clock (w.reads + 1))) :
    c.Get p w = { value := c.value, err := none, cache := c,
                  world := { clock := w.clock, reads := w.reads + 2, env := w.env } } := by
  simp [Cache.Get, World.Now, h1, h2]

/-- On a re-check hit the producer is not invoked. -/
theorem invocations_recheck {V E σ : Type} (c : Cache V) (p : Producer V E σ) (w : World σ)
    (h1 : ¬ c.expiresAt.After (w.clock w.reads))
    (h2 : c.expiresAt.After (w.clock (w.reads + 1))) :
    c.invocations p w = 0 := by
  simp [Cache.invocations, Cache.Get, World.Now, h1, h2]

/-- The policy of a cell is never changed by `Get`. -/
theorem Get_config {V E σ : Type} (c : Cache V) (p : Producer V E σ) (w : World σ) :
    (c.Get p w).cache.config = c.config := by
  unfold Cache.Get
  simp only []
  split
  · rfl
  · split
    · rfl
    · split <;> rfl

/-- The clock itself is never changed by `Config.expiresAt`. -/
theorem expiresAt_clock {σ : Type} (c : Config) (w : World σ) :
    (c.expiresAt w).2.clock = w.clock := by
  unfold Config.expiresAt
  split <;> rfl

/-! ## Runs of `Get` -/

/-- While the cell stays fresh at every reading of the clock, a run of `Get` calls only serves
the held value: no producer runs and the cell does not change. -/
theorem GetAll_fresh {V E σ : Type} (c : Cache V) (qs : List (Producer V E σ)) :
    ∀ w : World σ, (∀ k, w.reads ≤ k → c.expiresAt.After (w.clock k)) →
      (c.GetAll qs w).1 = qs.map (fun _ => (c.value, none)) ∧
      (c.GetAll qs w).2.1 = c ∧ (c.GetAll qs w).2.2.env = w.env := by
  induction qs with
  | nil => intro w _; exact ⟨rfl, rfl, rfl⟩
  | cons q qs ih =>
    intro w hw
    have hq := hit_unfold c q w (hw w.reads (le_refl _))
    have hrest := ih { clock := w.clock, reads := w.reads + 1, env := w.env }
      (fun k hk => hw k (Nat.le_of_succ_le hk))
    simp only [Cache.GetAll, hq, List.map_cons]
    exact ⟨by rw [hrest.1], hrest.2.1, hrest.2.2⟩

/-- A run of `Get` calls is a run of operations that are all `Get`. -/
theorem GetAll_eq_run {V E σ : Type} (ps : List (Producer V E σ)) :
    ∀ (c : Cache V) (w : World σ), c.GetAll ps w = c.run (ps.map Op.get) w := by
  induction ps with
  | nil => intro c w; rfl
  | cons p ps ih =>
    intro c w
    simp only [Cache.GetAll, List.map_cons, Cache.run, Cache.apply, ih, Option.toList,
      List.singleton_append]

theorem producersOf_gets {V E σ : Type} (ps : List (Producer V E σ)) :
    producersOf (ps.map Op.get) = ps := by
  induction ps with
  | nil => rfl
  | cons p ps ih => simp only [List.map_cons, producersOf, ih]

/-- Counting producers return what the producers return and count one per invocation. -/
theorem invokeEach_counted {V E σ : Type} (ps : List (Producer V E σ)) :
    ∀ (s : σ) (k : Nat), invokeEach (ps.map counted) (s, k) =
      ((invokeEach ps s).1, ((invokeEach ps s).2, k + ps.length)) := by
  induction ps with
  | nil => intro s k; rfl
  | cons p ps ih =>
    intro s k
    simp only [List.map_cons, invokeEach, counted, ih, List.length_cons]
    rw [Nat.add_assoc, Nat.add_comm 1]

/-- A run on a cell that every successful refresh leaves stale (each producer fails, or the
ttl is non-positive and not the sentinel): started stale under a monotone clock, every `Get`
of the run invokes its producer, exactly once and in order, and the cell ends stale. -/
theorem run_stale {V E σ : Type} (cfg : Config) (ops : List (Op V E σ)) :
    ∀ (c : Cache V) (w : World σ), c.config = cfg → Monotone w.clock →
      c.expiresAt ≤ w.clock w.reads →
      (∀ r ∈ (invokeEach (producersOf ops) w.env).1, r.2 = none →
        cfg.ttl ≤ 0 ∧ cfg.ttl ≠ NoExpiration) →
      (c.run ops w).1 = (invokeEach (producersOf ops) w.env).1.map outcome ∧
      (c.run ops w).2.2.env = (invokeEach (producersOf ops) w.env).2 ∧
      (c.run ops w).2.2.clock = w.clock ∧
      (c.run ops w).2.1.config = cfg ∧
      (c.run ops w).2.1.expiresAt ≤ w.clock (c.run ops w).2.2.reads := by
  induction ops with
  | nil =>
    intro c w hc _ hst _
    exact ⟨rfl, rfl, rfl, hc, hst⟩
  | cons op ops ih =>
    intro c w hc hmono hst hkeep
    have h1 : ¬ c.expiresAt.After (w.clock w.reads) := not_lt.mpr hst
    have h2 : ¬ c.expiresAt.After (w.clock (w.reads + 1)) := stale_next c w h1 hmono
    cases op with
    | invalidate =>
      have hrec := ih (c.Invalidate w).1 (c.Invalidate w).2 hc hmono
        (hmono (Nat.le_succ w.reads)) hkeep
      simp only [Cache.run, Cache.apply, Option.toList, List.nil_append, producersOf]
      exact hrec
    | get p =>
      simp only [producersOf, invokeEach] at hkeep ⊢
      cases hp : (p w.env).1.2 with
      | some e =>
        have hg := Get_stale_err c p w e h1 h2 hp
        have hrec := ih c { clock := w.clock, reads := w.reads + 2, env := (p w.env).2 } hc
          hmono (le_trans hst (hmono (Nat.le_add_right w.reads 2)))
          (fun r hr => hkeep r (List.mem_cons_of_mem _ hr))
        simp only [Cache.run, Cache.apply, hg, Option.toList, List.singleton_append,
          List.map_cons]
        refine ⟨?_, hrec.2⟩
        rw [hrec.1]
        simp only [outcome, hp]
      | none =>
        have hg := Get_stale_ok c p w h1 h2 hp
        have hk := hkeep (p w.env).1 (List.mem_cons_self _ _) hp
        have hne : c.config.ttl ≠ NoExpiration := by rw [hc]; exact hk.2
        rw [expiresAt_finite _ _ hne] at hg
        have hle : (w.clock (w.reads + 2)).Add c.config.ttl ≤ w.clock (w.reads + 2 + 1) := by
          have h3 := hmono (Nat.le_add_right (w.reads + 2) 1)
          have h4 : c.config.ttl ≤ 0 := by rw [hc]; exact hk.1
          simp only [Time.Add]
          dsimp only [Duration, Time] at *
          omega
        have hrec := ih
          { c with value := (p w.env).1.1,
                   expiresAt := (w.clock (w.reads + 2)).Add c.config.ttl }
          { clock := w.clock, reads := w.reads + 2 + 1, env := (p w.env).2 } hc hmono hle
          (fun r hr => hkeep r (List.mem_cons_of_mem _ hr))
        simp only [Cache.run, Cache.apply, hg, Option.toList, List.singleton_append,
          List.map_cons]
        refine ⟨?_, hrec.2⟩
        rw [hrec.1]
        simp only [outcome, hp]

theorem producersOf_counted {V E σ : Type} (ops : List (Op V E σ)) :
    producersOf (ops.map Op.counted) = (producersOf ops).map counted := by
  induction ops with
  | nil => rfl
  | cons op ops ih =>
    cases op <;> simp only [List.map_cons, Op.counted, producersOf, ih]

/-- On a failed result `outcome` keeps the error and drops the value. -/
theorem outcome_of_failed {V E : Type} (r : Option V × Option E) (h : r.2 ≠ none) :
    outcome r = (none, r.2) := by
  unfold outcome
  cases hr : r.2 with
  | none => exact absurd hr h
  | some e => rfl

/-! ## Provenance of the held value -/

theorem lastSuccess_mem {V E : Type} (l : List (Option V × Option E)) (v : Option V)
    (h : lastSuccess l = some v) : (v, none) ∈ l := by
  induction l with
  | nil => exact absurd h (by simp [lastSuccess])
  | cons r rs ih =>
    obtain ⟨r1, r2⟩ := r
    cases r2 with
    | none =>
      simp only [lastSuccess, Option.some.injEq] at h
      rw [← h]
      exact List.mem_cons_self _ _
    | some e =>
      simp only [lastSuccess] at h
      exact List.mem_cons_of_mem _ (ih h)

/-- One call with a logging producer keeps the provenance invariant and the clock, only adds
to the log, and a `(v, nil)` it returns is in the log. -/
theorem apply_provenance {V E σ : Type} (c : Cache V) (op : Op V E σ)
    (w : World (σ × List (Option V × Option E)))
    (hmono : Monotone w.clock) (hP : Provenance c w) :
    Provenance (c.apply op.logged w).2.1 (c.apply op.logged w).2.2 ∧
    (c.apply op.logged w).2.2.clock = w.clock ∧
    (∀ x ∈ w.env.2, x ∈ (c.apply op.logged w).2.2.env.2) ∧
    (∀ v, (c.apply op.logged w).1 = some (v, none) → (v, none) ∈ (c.apply op.logged w).2.2.env.2) := by
  have hstep : w.clock w.reads ≤ w.clock (w.reads + 1) := hmono (Nat.le_succ _)
  have hstep2 : w.clock w.reads ≤ w.clock (w.reads + 2) := hmono (Nat.le_add_right _ 2)
  cases op with
  | invalidate =>
    refine ⟨⟨fun h => ⟨(hP.1 h).1, hstep⟩, hP.2⟩, rfl, fun x hx => hx, ?_⟩
    intro v hv
    exact absurd hv (by simp [Op.logged, Cache.apply])
  | get p =>
    simp only [Op.logged, Cache.apply]
    by_cases h1 : c.expiresAt.After (w.clock w.reads)
    · rw [hit_unfold c (logged p) w h1]
      refine ⟨⟨fun h => absurd h1 (not_lt.mpr (hP.1 h).2), hP.2⟩, rfl, fun x hx => hx, ?_⟩
      intro v hv
      simp only [Option.some.injEq, Prod.mk.injEq, and_true] at hv
      cases hl : lastSuccess w.env.2 with
      | none => exact absurd h1 (not_lt.mpr (hP.1 hl).2)
      | some v' =>
        have hcv := hP.2 v' hl
        rw [← hv, hcv]
        exact lastSuccess_mem _ _ hl
    · have h2 := stale_next c w h1 hmono
      have hle : c.expiresAt ≤ w.clock (w.reads + 2) := le_trans (not_lt.mp h1) hstep2
      cases hp : (p w.env.1).1.2 with
      | some e =>
        rw [Get_stale_err c (logged p) w e h1 h2 hp]
        have hlast : lastSuccess ((p w.env.1).1 :: w.env.2) = lastSuccess w.env.2 := by
          simp only [lastSuccess, hp]
        refine ⟨⟨?_, ?_⟩, rfl, fun x hx => List.mem_cons_of_mem _ hx, ?_⟩
        · intro h
          simp only [logged] at h
          rw [hlast] at h
          exact ⟨(hP.1 h).1, hle⟩
        · intro v h
          simp only [logged] at h
          rw [hlast] at h
          exact hP.2 v h
        · intro v hv
          exact absurd hv (by simp)
      | none =>
        rw [Get_stale_ok c (logged p) w h1 h2 hp]
        have hlast : lastSuccess ((p w.env.1).1 :: w.env.2) = some (p w.env.1).1.1 := by
          simp only [lastSuccess, hp]
        refine ⟨⟨?_, ?_⟩, ?_, ?_, ?_⟩
        · intro h
          rw [expiresAt_env] at h
          simp only [logged] at h
          rw [hlast] at h
          exact absurd h (by simp)
        · intro v h
          rw [expiresAt_env] at h
          simp only [logged] at h
          rw [hlast] at h
          simp only [Option.some.injEq] at h
          rw [← h]
          rfl
        · rw [expiresAt_clock]
        · intro x hx
          rw [expiresAt_env]
          exact List.mem_cons_of_mem _ hx
        · intro v hv
          rw [expiresAt_env]
          simp only [Option.some.injEq, Prod.mk.injEq, and_true] at hv
          simp only [logged]
          rw [← hv]
          have hpair : ((logged p w.env).1.1, (none : Option E)) = (p w.env.1).1 :=
            Prod.ext rfl hp.symm
          rw [hpair]
          exact List.mem_cons_self _ _

/-- A run with logging producers keeps the provenance invariant; every `(v, nil)` it returns
is in the final log. -/
theorem run_provenance {V E σ : Type} (ops : List (Op V E σ)) :
    ∀ (c : Cache V) (w : World (σ × List (Option V × Option E))),
      Monotone w.clock → Provenance c w →
      Provenance (c.run (ops.map Op.logged) w).2.1 (c.run (ops.map Op.logged) w).2.2 ∧
      (c.run (ops.map Op.logged) w).2.2.clock = w.clock ∧
      (∀ x ∈ w.env.2, x ∈ (c.run (ops.map Op.logged) w).2.2.env.2) ∧
      (∀ v, (v, none) ∈ (c.run (ops.map Op.logged) w).1 →
        (v, none) ∈ (c.run (ops.map Op.logged) w).2.2.env.2) := by
  induction ops with
  | nil =>
    intro c w _ hP
    exact ⟨hP, rfl, fun x hx => hx, fun v hv => absurd hv (List.not_mem_nil _)⟩
  | cons op ops ih =>
    intro c w hmono hP
    obtain ⟨a1, a2, a3, a4⟩ := apply_provenance c op w hmono hP
    have hmono' : Monotone (c.apply op.logged w).2.2.clock := by rw [a2]; exact hmono
    obtain ⟨b1, b2, b3, b4⟩ := ih (c.apply op.logged w).2.1 (c.apply op.logged w).2.2 hmono' a1
    simp only [List.map_cons, Cache.run]
    refine ⟨b1, by rw [b2, a2], fun x hx => b3 x (a3 x hx), ?_⟩
    intro v hv
    rcases List.mem_append.mp hv with h | h
    · cases ha : (c.apply op.logged w).1 with
      | none => rw [ha] at h; exact absurd h (List.not_mem_nil _)
      | some r =>
        rw [ha] at h
        simp only [Option.toList, List.mem_singleton] at h
        exact b3 _ (a4 v (by rw [ha, h]))
    · exact b4 v h

/-- What `Config.expiresAt` computes does not depend on the environment. -/
theorem expiresAt_sim {σ τ : Type} (cfg : Config) (w : World σ) (W : World τ)
    (hc : W.clock = w.clock) (hr : W.reads = w.reads) :
    (cfg.expiresAt W).1 = (cfg.expiresAt w).1 ∧
    (cfg.expiresAt W).2.clock = (cfg.expiresAt w).2.clock ∧
    (cfg.expiresAt W).2.reads = (cfg.expiresAt w).2.reads := by
  unfold Config.expiresAt
  split
  · exact ⟨rfl, hc, hr⟩
  · simp only [World.Now, hc, hr, and_self]

/-- Logging changes nothing: a call with the logging producer returns the same results and
leaves the same cell, clock and environment as the call with the producer itself. -/
theorem apply_logged_sim {V E σ : Type} (c : Cache V) (op : Op V E σ) (w : World σ)
    (W : World (σ × List (Option V × Option E)))
    (hc : W.clock = w.clock) (hr : W.reads = w.reads) (he : W.env.1 = w.env) :
    (c.apply op.logged W).1 = (c.apply op w).1 ∧
    (c.apply op.logged W).2.1 = (c.apply op w).2.1 ∧
    (c.apply op.logged W).2.2.clock = (c.apply op w).2.2.clock ∧
    (c.apply op.logged W).2.2.reads = (c.apply op w).2.2.reads ∧
    (c.apply op.logged W).2.2.env.1 = (c.apply op w).2.2.env := by
  cases op with
  | invalidate =>
    simp only [Op.logged, Cache.apply, Cache.Invalidate, World.Now, hc, hr, he, and_self]
  | get p =>
    simp only [Op.logged, Cache.apply]
    by_cases h1 : c.expiresAt.After (w.clock w.reads)
    · have h1' : c.expiresAt.After (W.clock W.reads) := by rw [hc, hr]; exact h1
      rw [hit_unfold c (logged p) W h1', hit_unfold c p w h1]
      simp only [hc, hr, he, and_self]
    · have h1' : ¬ c.expiresAt.After (W.clock W.reads) := by rw [hc, hr]; exact h1
      by_cases h2 : c.expiresAt.After (w.clock (w.reads + 1))
      · have h2' : c.expiresAt.After (W.clock (W.reads + 1)) := by rw [hc, hr]; exact h2
        rw [recheck_unfold c (logged p) W h1' h2', recheck_unfold c p w h1 h2]
        simp only [hc, hr, he, and_self]
      · have h2' : ¬ c.expiresAt.After (W.clock (W.reads + 1)) := by rw [hc, hr]; exact h2
        cases hp : (p w.env).1.2 with
        | some e =>
          have hp' : (logged p W.env).1.2 = some e := by simp only [logged, he]; exact hp
          rw [Get_stale_err c (logged p) W e h1' h2' hp', Get_stale_err c p w e h1 h2 hp]
          simp only [logged, hc, hr, he, and_self]
        | none =>
          have hp' : (logged p W.env).1.2 = none := by simp only [logged, he]; exact hp
          rw [Get_stale_ok c (logged p) W h1' h2' hp', Get_stale_ok c p w h1 h2 hp]
          obtain ⟨e1, e2, e3⟩ := expiresAt_sim c.config
            { clock := w.clock, reads := w.reads + 2, env := (p w.env).2 }
            { clock := W.clock, reads := W.reads + 2, env := (logged p W.env).2 }
            hc (by simp only [hr])
          simp only [logged, he] at e1 e2 e3 ⊢
          simp only [e1, e2, e3, expiresAt_env, and_self]

/-- Logging changes nothing over a whole run either. -/
theorem run_logged_sim {V E σ : Type} (ops : List (Op V E σ)) :
    ∀ (c : Cache V) (w : World σ) (W : World (σ × List (Option V × Option E))),
      W.clock = w.clock → W.reads = w.reads → W.env.1 = w.env →
      (c.run (ops.map Op.logged) W).1 = (c.run ops w).1 ∧
      (c.run (ops.map Op.logged) W).2.1 = (c.run ops w).2.1 ∧
      (c.run (ops.map Op.logged) W).2.2.env.1 = (c.run ops w).2.2.env := by
  induction ops with
  | nil => intro c w W _ _ he; exact ⟨rfl, rfl, he⟩
  | cons op ops ih =>
    intro c w W hc hr he
    obtain ⟨a1, a2, a3, a4, a5⟩ := apply_logged_sim c op w W hc hr he
    have hrec := ih (c.apply op w).2.1 (c.apply op w).2.2 (c.apply op.logged W).2.2 a3 a4 a5
    simp only [List.map_cons, Cache.run, a1, a2, hrec, and_self]

/-! ## Goroutines: the lock discipline -/

theorem LockInv_init {V E σ : Type} (c : Cache V) (w : World σ) (calls : Nat → Op V E σ) :
    (Sys.init c w calls).LockInv := by
  intro j
  simp [Sys.init, Pc.holdsLock]

/-- The three ways a move of goroutine `i` keeps the lock discipline: it ends holding the
lock, which was free or already its own; it gives back the lock it held; or it neither held
nor holds the lock and leaves the holder alone. -/
theorem LockInv_update {V E σ : Type} (s : Sys V E σ) (i : Nat) (pc : Pc V E)
    (holder : Option Nat) (cell : Cache V) (world : World σ) (hinv : s.LockInv)
    (hcond : (pc.holdsLock = true ∧ holder = some i ∧ (s.holder = none ∨ s.holder = some i)) ∨
      (pc.holdsLock = false ∧ holder = none ∧ s.holder = some i) ∨
      (pc.holdsLock = false ∧ holder = s.holder ∧ (s.routines i).pc.holdsLock = false)) :
    Sys.LockInv { cell := cell, holder := holder, world := world,
                  routines := Function.update s.routines i
                    { call := (s.routines i).call, pc := pc } } := by
  intro j
  by_cases hj : j = i
  · subst hj
    simp only [Function.update_same]
    rcases hcond with ⟨h1, h2, _⟩ | ⟨h1, h2, _⟩ | ⟨h1, h2, h3⟩
    · simp [h1, h2]
    · simp [h1, h2]
    · rw [h1, h2, ← hinv j, h3]
  · simp only [Function.update_noteq hj]
    rcases hcond with ⟨_, h2, h3⟩ | ⟨_, h2, h3⟩ | ⟨_, h2, _⟩
    · rw [h2, hinv j]
      rcases h3 with h3 | h3
      · rw [h3]
        constructor
        · intro h; exact absurd h (by simp)
        · intro h; exact absurd (Option.some.inj h) (Ne.symm hj)
      · rw [h3]
    · rw [h2, hinv j, h3]
      constructor
      · intro h; exact absurd (Option.some.inj h) (Ne.symm hj)
      · intro h; exact absurd h (by simp)
    · rw [h2]; exact hinv j

/-- Every line a goroutine runs keeps the lock discipline. -/
theorem step_LockInv {V E σ : Type} (s : Sys V E σ) (i : Nat) (hinv : s.LockInv) :
    (s.step i).LockInv := by
  have hown : (s.routines i).pc.holdsLock = true → s.holder = some i := (hinv i).mp
  unfold Sys.step
  split
  · rename_i hp
    split
    · exact LockInv_update s i _ _ _ _ hinv (Or.inr (Or.inr ⟨rfl, rfl, by rw [hp]; rfl⟩))
    · exact LockInv_update s i _ _ _ _ hinv (Or.inr (Or.inr ⟨rfl, rfl, by rw [hp]; rfl⟩))
  · split
    · rename_i hh
      exact LockInv_update s i _ _ _ _ hinv (Or.inl ⟨rfl, rfl, Or.inl hh⟩)
    · exact hinv
  · rename_i hp
    have ho := hown (by rw [hp]; rfl)
    split
    · exact LockInv_update s i _ _ _ _ hinv (Or.inr (Or.inl ⟨rfl, rfl, ho⟩))
    · exact LockInv_update s i _ _ _ _ hinv (Or.inl ⟨rfl, ho, Or.inr ho⟩)
  · rename_i hp
    have ho := hown (by rw [hp]; rfl)
    exact LockInv_update s i _ _ _ _ hinv (Or.inl ⟨rfl, ho, Or.inr ho⟩)
  · rename_i hp
    have ho := hown (by rw [hp]; rfl)
    split
    · exact LockInv_update s i _ _ _ _ hinv (Or.inr (Or.inl ⟨rfl, rfl, ho⟩))
    · exact LockInv_update s i _ _ _ _ hinv (Or.inl ⟨rfl, ho, Or.inr ho⟩)
  · rename_i hp
    have ho := hown (by rw [hp]; rfl)
    exact LockInv_update s i _ _ _ _ hinv (Or.inl ⟨rfl, ho, Or.inr ho⟩)
  · rename_i hp
    have ho := hown (by rw [hp]; rfl)
    exact LockInv_update s i _ _ _ _ hinv (Or.inr (Or.inl ⟨rfl, rfl, ho⟩))
  · split
    · rename_i hh
      exact LockInv_update s i _ _ _ _ hinv (Or.inl ⟨rfl, rfl, Or.inl hh⟩)
    · exact hinv
  · rename_i hp
    have ho := hown (by rw [hp]; rfl)
    exact LockInv_update s i _ _ _ _ hinv (Or.inl ⟨rfl, ho, Or.inr ho⟩)
  · rename_i hp
    have ho := hown (by rw [hp]; rfl)
    exact LockInv_update s i _ _ _ _ hinv (Or.inr (Or.inl ⟨rfl, rfl, ho⟩))
  · exact hinv

/-- Every interleaving keeps the lock discipline. -/
theorem run_LockInv {V E σ : Type} (sched : List Nat) :
    ∀ s : Sys V E σ, s.LockInv → (s.run sched).LockInv := by
  induction sched with
  | nil => intro s h; exact h
  | cons i sched ih => intro s h; exact ih (s.step i) (step_LockInv s i h)

/-- While goroutine `i` holds the lock, a line run by another goroutine changes neither the
cell nor the environment nor goroutine `i`; it can only read the clock. -/
theorem step_other {V E σ : Type} (s : Sys V E σ) (i j : Nat) (hinv : s.LockInv)
    (hhold : s.holder = some i) (hji : j ≠ i) :
    (s.step j).cell = s.cell ∧ (s.step j).world.env = s.world.env ∧
    (s.step j).world.clock = s.world.clock ∧ s.world.reads ≤ (s.step j).world.reads ∧
    (s.step j).holder = some i ∧ (s.step j).routines i = s.routines i := by
  have hnot : (s.routines j).pc.holdsLock ≠ true := by
    intro h
    have h2 := (hinv j).mp h
    rw [hhold] at h2
    exact hji (Option.some.inj h2).symm
  have hupd : ∀ g : Goroutine V E σ, Function.update s.routines j g i = s.routines i :=
    fun g => Function.update_noteq (Ne.symm hji) _ _
  unfold Sys.step
  split
  · split
    · exact ⟨rfl, rfl, rfl, Nat.le_succ _, hhold, hupd _⟩
    · exact ⟨rfl, rfl, rfl, Nat.le_succ _, hhold, hupd _⟩
  · split
    · rename_i hh; rw [hhold] at hh; exact absurd hh (by simp)
    · exact ⟨rfl, rfl, rfl, le_refl _, hhold, rfl⟩
  · rename_i hp; exact absurd (by rw [hp]; rfl) hnot
  · rename_i hp; exact absurd (by rw [hp]; rfl) hnot
  · rename_i hp; exact absurd (by rw [hp]; rfl) hnot
  · rename_i hp; exact absurd (by rw [hp]; rfl) hnot
  · rename_i hp; exact absurd (by rw [hp]; rfl) hnot
  · split
    · rename_i hh; rw [hhold] at hh; exact absurd hh (by simp)
    · exact ⟨rfl, rfl, rfl, le_refl _, hhold, rfl⟩
  · rename_i hp; exact absurd (by rw [hp]; rfl) hnot
  · rename_i hp; exact absurd (by rw [hp]; rfl) hnot
  · exact ⟨rfl, rfl, rfl, le_refl _, hhold, rfl⟩

/-- The same over any number of lines run by other goroutines. -/
theorem run_others {V E σ : Type} (i : Nat) (mid : List Nat) :
    ∀ s : Sys V E σ, s.LockInv → s.holder = some i → (∀ j ∈ mid, j ≠ i) →
      (s.run mid).cell = s.cell ∧ (s.run mid).world.env = s.world.env ∧
      (s.run mid).world.clock = s.world.clock ∧ s.world.reads ≤ (s.run mid).world.reads ∧
      (s.run mid).holder = some i ∧ (s.run mid).routines i = s.routines i := by
  induction mid with
  | nil => intro s _ hh _; exact ⟨rfl, rfl, rfl, le_refl _, hh, rfl⟩
  | cons j mid ih =>
    intro s hinv hh hmid
    obtain ⟨a1, a2, a3, a4, a5, a6⟩ :=
      step_other s i j hinv hh (hmid j (List.mem_cons_self _ _))
    obtain ⟨b1, b2, b3, b4, b5, b6⟩ := ih (s.step j) (step_LockInv s j hinv) a5
      (fun k hk => hmid k (List.mem_cons_of_mem _ hk))
    exact ⟨b1.trans a1, b2.trans a2, b3.trans a3, le_trans a4 b4, b5, b6.trans a6⟩

/-- Taking the lock: a `Get` waiting at `Lock()` gets the free lock and nothing else changes. -/
theorem step_atLock {V E σ : Type} (s : Sys V E σ) (i : Nat) (p : Producer V E σ)
    (hcall : (s.routines i).call = Op.get p) (hpc : (s.routines i).pc = Pc.atLock)
    (hfree : s.holder = none) :
    s.step i = { s.goto i Pc.recheck with holder := some i } := by
  unfold Sys.step
  simp only [hcall, hpc, hfree]

/-- The re-check of line 67, made by the goroutine holding the lock. -/
theorem step_recheck {V E σ : Type} (s : Sys V E σ) (i : Nat) (p : Producer V E σ)
    (hcall : (s.routines i).call = Op.get p) (hpc : (s.routines i).pc = Pc.recheck) :
    s.step i =
      if s.cell.expiresAt.After (s.world.clock s.world.reads) then
        { s.goto i (Pc.done s.cell.value none) with world := s.world.Now.2, holder := none }
      else
        { s.goto i Pc.inProducer with world := s.world.Now.2 } := by
  unfold Sys.step
  simp only [hcall, hpc]
  rfl

/-- A goroutine left to run alone from the start of `Get`, the lock being free, does in at
most seven lines exactly what the sequential `Cache.Get` does. -/
theorem lone_Get {V E σ : Type} (s : Sys V E σ) (i : Nat) (p : Producer V E σ)
    (hcall : (s.routines i).call = Op.get p) (hpc : (s.routines i).pc = Pc.entry)
    (hfree : s.holder = none) :
    ((s.run (List.replicate 7 i)).routines i).pc =
      Pc.done (s.cell.Get p s.world).value (s.cell.Get p s.world).err ∧
    (s.run (List.replicate 7 i)).cell = (s.cell.Get p s.world).cache ∧
    (s.run (List.replicate 7 i)).world = (s.cell.Get p s.world).world ∧
    (s.run (List.replicate 7 i)).holder = none := by
  by_cases h1 : s.cell.expiresAt.After (s.world.clock s.world.reads)
  · rw [hit_unfold s.cell p s.world h1]
    simp [List.replicate, Sys.run, Sys.step, Sys.goto, hcall, hpc, hfree, h1, World.Now]
  · by_cases h2 : s.cell.expiresAt.After (s.world.clock (s.world.reads + 1))
    · rw [recheck_unfold s.cell p s.world h1 h2]
      simp [List.replicate, Sys.run, Sys.step, Sys.goto, hcall, hpc, hfree, h1, h2, World.Now]
    · cases hp : (p s.world.env).1.2 with
      | some e =>
        rw [Get_stale_err s.cell p s.world e h1 h2 hp]
        simp [List.replicate, Sys.run, Sys.step, Sys.goto, hcall, hpc, hfree, h1, h2, hp,
          World.Now]
      | none =>
        rw [Get_stale_ok s.cell p s.world h1 h2 hp]
        simp [List.replicate, Sys.run, Sys.step, Sys.goto, hcall, hpc, hfree, h1, h2, hp,
          World.Now]

/-- A goroutine left to run alone through `Invalidate`, the lock being free, does in three
lines exactly what the sequential `Cache.Invalidate` does. -/
theorem lone_Invalidate {V E σ : Type} (s : Sys V E σ) (i : Nat)
    (hcall : (s.routines i).call = Op.invalidate) (hpc : (s.routines i).pc = Pc.entry)
    (hfree : s.holder = none) :
    ((s.run (List.replicate 3 i)).routines i).pc = Pc.done none none ∧
    (s.run (List.replicate 3 i)).cell = (s.cell.Invalidate s.world).1 ∧
    (s.run (List.replicate 3 i)).world = (s.cell.Invalidate s.world).2 ∧
    (s.run (List.replicate 3 i)).holder = none := by
  simp [List.replicate, Sys.run, Sys.step, Sys.goto, hcall, hpc, hfree, World.Now,
    Cache.Invalidate]

/-! ## The claims -/

/-- C1. Cache hit: when the cell's `expiresAt` is strictly after the clock reading, `Get`
returns the held value with a nil error, does not invoke the producer (whatever the producer
would do), and leaves the cell as it was. -/
theorem Get_hit {V E σ : Type} (c : Cache V) (p : Producer V E σ) (w : World σ)
    (h : c.expiresAt.After (w.clock w.reads)) :
    (c.Get p w).value = c.value ∧ (c.Get p w).err = none ∧
    (c.Get p w).cache = c ∧ (c.Get p w).world.env = w.env ∧
    c.invocations p w = 0 := by
  rw [hit_unfold c p w h]
  exact ⟨rfl, rfl, rfl, rfl, invocations_hit c p w h⟩

theorem Get_hit_witness :
    ((⟨some 1, 10, ⟨5⟩⟩ : Cache Nat).Get
        (fun s : Unit => ((some 2, some "error"), s)) ⟨fun _ => 9, 0, ()⟩).value = some 1 :=
  (Get_hit (⟨some 1, 10, ⟨5⟩⟩ : Cache Nat) (fun s : Unit => ((some 2, some "error"), s))
    ⟨fun _ => 9, 0, ()⟩ (by decide)).1

/-- C2. Successful refresh: when the cell is stale at the clock reading (also when `expiresAt`
equals it) and the producer returns `(v, nil)`, `Get` invokes the producer exactly once,
returns `(v, nil)`, and leaves the cell holding `v` with `expiresAt` the result of the policy's
`expiresAt()` run after the producer returned, which for a finite ttl is the third clock
reading of the call plus the ttl. -/
theorem Get_refresh {V E σ : Type} (c : Cache V) (p : Producer V E σ) (w : World σ)
    (v : Option V)
    (hstale : ¬ c.expiresAt.After (w.clock w.reads)) (hmono : Monotone w.clock)
    (hp : (p w.env).1 = (v, none)) :
    (c.Get p w).value = v ∧ (c.Get p w).err = none ∧
    (c.Get p w).cache.value = v ∧
    (c.Get p w).cache.expiresAt =
      (c.config.expiresAt { clock := w.clock, reads := w.reads + 2, env := (p w.env).2 }).1 ∧
    (c.config.ttl ≠ NoExpiration →
      (c.Get p w).cache.expiresAt = (w.clock (w.reads + 2)).Add c.config.ttl) ∧
    (c.Get p w).cache.config = c.config ∧
    (c.Get p w).world.env = (p w.env).2 ∧
    c.invocations p w = 1 := by
  rw [refresh_unfold c p w v hstale hmono hp,
    invocations_stale c p w hstale (stale_next c w hstale hmono)]
  refine ⟨rfl, rfl, rfl, rfl, ?_, rfl, expiresAt_env _ _, rfl⟩
  intro hne
  rw [expiresAt_finite _ _ hne]

theorem Get_refresh_witness :
    ((⟨some 1, 10, ⟨5⟩⟩ : Cache Nat).Get
        (fun s : Unit => ((some 2, (none : Option String)), s))
        ⟨fun _ => 10, 0, ()⟩).cache.expiresAt = 15 :=
  ((Get_refresh (⟨some 1, 10, ⟨5⟩⟩ : Cache Nat)
      (fun s : Unit => ((some 2, (none : Option String)), s)) ⟨fun _ => 10, 0, ()⟩ (some 2)
      (by decide) monotone_const rfl).2.2.2.2.1 (by decide)).trans (by decide)

/-- C3. Failed refresh is atomic: when the cell is stale and the producer returns `(x, err)`
with `err` non-nil, `Get` returns exactly `(nil, err)`, whatever `x` and the held value are, and
the cell is left exactly as it was before the call. -/
theorem Get_failure {V E σ : Type} (c : Cache V) (p : Producer V E σ) (w : World σ)
    (x : Option V) (e : E)
    (hstale : ¬ c.expiresAt.After (w.clock w.reads)) (hmono : Monotone w.clock)
    (hp : (p w.env).1 = (x, some e)) :
    (c.Get p w).value = none ∧ (c.Get p w).err = some e ∧
    (c.Get p w).cache = c ∧
    (c.Get p w).world.env = (p w.env).2 ∧
    c.invocations p w = 1 := by
  have h2 := stale_next c w hstale hmono
  have hp2 : (p w.env).1.2 = some e := by rw [hp]
  rw [Get_stale_err c p w e hstale h2 hp2, invocations_stale c p w hstale h2]
  exact ⟨rfl, rfl, rfl, rfl, rfl⟩

theorem Get_failure_witness :
    ((⟨some 3, 10, ⟨5⟩⟩ : Cache Nat).Get
        (fun s : Unit => ((some 5, some "error"), s)) ⟨fun _ => 10, 0, ()⟩).value = none :=
  (Get_failure (⟨some 3, 10, ⟨5⟩⟩ : Cache Nat)
      (fun s : Unit => ((some 5, some "error"), s)) ⟨fun _ => 10, 0, ()⟩ (some 5) "error"
      (by decide) monotone_const rfl).1

/-- C4. Expiry boundary: with a finite ttl `d > 0`, after a `Get` whose producer returned
successfully and whose policy read the clock at `t1` (the reading taken once the producer had
returned), the next `Get`, at clock reading `t`, invokes its producer exactly when
`t1 + d ≤ t`; for `t < t1 + d` it returns the cached value without invoking the producer and
leaves the cell as it is. The reading at which the first `Get` was entered plays no part. -/
theorem expiry_boundary {V E σ : Type} (c : Cache V) (p q : Producer V E σ)
    (w w' : World σ) (v : Option V) (d : Duration)
    (hd : 0 < d) (httl : c.config.ttl = d)
    (hstale : ¬ c.expiresAt.After (w.clock w.reads)) (hmono : Monotone w.clock)
    (hp : (p w.env).1 = (v, none)) (hmono' : Monotone w'.clock) :
    (c.Get p w).cache.expiresAt = w.clock (w.reads + 2) + d ∧
    ((c.Get p w).cache.invocations q w' = 1 ↔ w.clock (w.reads + 2) + d ≤ w'.clock w'.reads) ∧
    (w'.clock w'.reads < w.clock (w.reads + 2) + d →
      (c.Get p w).cache.invocations q w' = 0 ∧
      ((c.Get p w).cache.Get q w').value = v ∧
      ((c.Get p w).cache.Get q w').err = none ∧
      ((c.Get p w).cache.Get q w').cache = (c.Get p w).cache) := by
  have hne : c.config.ttl ≠ NoExpiration := by
    rw [httl]; intro h; rw [h] at hd; exact absurd hd (by decide)
  have hval : (c.Get p w).cache.value = v := by
    rw [refresh_unfold c p w v hstale hmono hp]
  have hexp : (c.Get p w).cache.expiresAt = w.clock (w.reads + 2) + d := by
    rw [refresh_unfold c p w v hstale hmono hp, expiresAt_finite _ _ hne, httl]; rfl
  refine ⟨hexp, ?_, ?_⟩
  · constructor
    · intro hinv
      by_contra hlt
      have hafter : (c.Get p w).cache.expiresAt.After (w'.clock w'.reads) := by
        rw [hexp]; exact not_le.mp hlt
      rw [invocations_hit _ q w' hafter] at hinv
      exact absurd hinv (by decide)
    · intro hle
      exact invocations_of_le _ q w' (by rw [hexp]; exact hle) hmono'
  · intro hlt
    have hafter : (c.Get p w).cache.expiresAt.After (w'.clock w'.reads) := by
      rw [hexp]; exact hlt
    refine ⟨invocations_hit _ q w' hafter, ?_⟩
    rw [hit_unfold _ q w' hafter]
    exact ⟨hval, rfl, rfl⟩

theorem expiry_boundary_witness :
    (0 : Int) + 100 ≤ 150 ∧ (150 : Int) < 100 + 100 ∧
    (((⟨none, 0, ⟨100⟩⟩ : Cache Nat).Get
        (fun s : Unit => ((some 1, (none : Option String)), s))
        ⟨fun k => 50 * (k : Int), 0, ()⟩).cache.Get
        (fun s : Unit => ((some 2, (none : Option String)), s))
        ⟨fun _ => 150, 3, ()⟩).value = some 1 :=
  ⟨by decide, by decide,
    ((expiry_boundary (⟨none, 0, ⟨100⟩⟩ : Cache Nat)
      (fun s : Unit => ((some 1, (none : Option String)), s))
      (fun s : Unit => ((some 2, (none : Option String)), s))
      ⟨fun k => 50 * (k : Int), 0, ()⟩ ⟨fun _ => 150, 3, ()⟩ (some 1) 100
      (by decide) rfl (by decide)
      (fun a b h => Int.mul_le_mul_of_nonneg_left (Int.ofNat_le.mpr h) (by decide))
      rfl monotone_const).2.2 (by decide)).2.1⟩

/-- C5. Invalidate: whatever the cell and its policy, `Invalidate` at clock reading `t` leaves
`value` (and the policy) unchanged and sets `expiresAt = t`; the next `Get`, at any clock
reading `t' ≥ t`, invokes its producer exactly once, and when that producer succeeds with `v2`
it returns `(v2, nil)`. -/
theorem Invalidate_forces_refresh {V E σ : Type} (c : Cache V) (w w' : World σ)
    (q : Producer V E σ)
    (hlater : w.clock w.reads ≤ w'.clock w'.reads) (hmono : Monotone w'.clock) :
    (c.Invalidate w).1.value = c.value ∧
    (c.Invalidate w).1.expiresAt = w.clock w.reads ∧
    (c.Invalidate w).1.config = c.config ∧
    (c.Invalidate w).1.invocations q w' = 1 ∧
    (∀ v2 : Option V, (q w'.env).1 = (v2, none) →
      ((c.Invalidate w).1.Get q w').value = v2 ∧ ((c.Invalidate w).1.Get q w').err = none) := by
  have hst : ¬ (c.Invalidate w).1.expiresAt.After (w'.clock w'.reads) := not_lt.mpr hlater
  refine ⟨rfl, rfl, rfl, invocations_of_le _ q w' hlater hmono, ?_⟩
  intro v2 hq
  rw [refresh_unfold _ q w' v2 hst hmono hq]
  exact ⟨rfl, rfl⟩

theorem Invalidate_forces_refresh_witness :
    ((⟨some 1, 1000, ⟨-1⟩⟩ : Cache Nat).Invalidate
        (⟨fun _ => 7, 0, ()⟩ : World Unit)).1.invocations
      (fun s : Unit => ((some 2, (none : Option String)), s)) ⟨fun _ => 7, 1, ()⟩ = 1 :=
  (Invalidate_forces_refresh (⟨some 1, 1000, ⟨-1⟩⟩ : Cache Nat) ⟨fun _ => 7, 0, ()⟩
    ⟨fun _ => 7, 1, ()⟩ (fun s : Unit => ((some 2, (none : Option String)), s))
    (by decide) monotone_const).2.2.2.1

/-- C6. First Get always computes: for a cell built by `New` at clock reading `t0`, with any
policy, the first `Get(p)` at any clock reading `t ≥ t0` invokes `p` exactly once; what it
returns is what `p` returned (the error of `p`, and the value of `p` when that error is nil),
so it returns `(nil, nil)` only when `p` itself did: the initial empty value is never served
as a hit. -/
theorem first_Get_computes {V E σ : Type} (config : Config) (w w' : World σ)
    (p : Producer V E σ)
    (hlater : w.clock w.reads ≤ w'.clock w'.reads) (hmono : Monotone w'.clock) :
    (@New V σ config w).1.value = none ∧
    (@New V σ config w).1.expiresAt = w.clock w.reads ∧
    (@New V σ config w).1.invocations p w' = 1 ∧
    ((@New V σ config w).1.Get p w').err = (p w'.env).1.2 ∧
    ((p w'.env).1.2 = none → ((@New V σ config w).1.Get p w').value = (p w'.env).1.1) ∧
    (((@New V σ config w).1.Get p w').value = none ∧
      ((@New V σ config w).1.Get p w').err = none → (p w'.env).1 = (none, none)) ∧
    ((@New V σ config w).1.Get p w').world.env = (p w'.env).2 := by
  have hst : ¬ (@New V σ config w).1.expiresAt.After (w'.clock w'.reads) := not_lt.mpr hlater
  have h2 := stale_next _ w' hst hmono
  refine ⟨rfl, rfl, invocations_stale _ p w' hst h2, ?_⟩
  cases hp : (p w'.env).1.2 with
  | none =>
    rw [Get_stale_ok _ p w' hst h2 hp]
    exact ⟨rfl, fun _ => rfl, fun h => Prod.ext h.1 hp, expiresAt_env _ _⟩
  | some e =>
    rw [Get_stale_err _ p w' e hst h2 hp]
    exact ⟨rfl, fun h => absurd h (by simp), fun h => absurd h.2 (by simp), rfl⟩

theorem first_Get_computes_witness :
    (@New Nat Unit ⟨3600⟩ ⟨fun _ => 7, 0, ()⟩).1.invocations
      (fun s : Unit => ((some 1, some "error"), s)) ⟨fun _ => 7, 1, ()⟩ = 1 :=
  (first_Get_computes ⟨3600⟩ ⟨fun _ => 7, 0, ()⟩ ⟨fun _ => 7, 1, ()⟩
    (fun s : Unit => ((some 1, some "error"), s)) (by decide) monotone_const).2.2.1

/-- C7. NoExpiration never auto-expires: with the policy `NewConfig(NoExpiration, j)`, once a
`Get` has succeeded with `v` the cell expires at `Time.max`, the last instant a `time.Time`
can hold, some 292 billion years away and beyond any reading a clock delivers. Every later
`Get`, at any clock reading before that instant and with no `Invalidate` in between, returns
`(v, nil)` without invoking its producer and without changing the cell, and so does every run
of such calls; only after an `Invalidate` does the next `Get` invoke its producer again. -/
theorem NoExpiration_never_expires {V E σ : Type} (j : Duration) (r : Rand) (c : Cache V)
    (p : Producer V E σ) (w : World σ) (v : Option V)
    (hcfg : c.config = (NewConfig NoExpiration j r).1)
    (hstale : ¬ c.expiresAt.After (w.clock w.reads)) (hmono : Monotone w.clock)
    (hp : (p w.env).1 = (v, none)) :
    (c.Get p w).value = v ∧ (c.Get p w).err = none ∧
    (c.Get p w).cache.value = v ∧ (c.Get p w).cache.expiresAt = Time.max ∧
    (∀ (q : Producer V E σ) (w' : World σ), w'.clock w'.reads < Time.max →
      ((c.Get p w).cache.Get q w').value = v ∧ ((c.Get p w).cache.Get q w').err = none ∧
      ((c.Get p w).cache.Get q w').cache = (c.Get p w).cache ∧
      ((c.Get p w).cache.Get q w').world.env = w'.env ∧
      (c.Get p w).cache.invocations q w' = 0) ∧
    (∀ (qs : List (Producer V E σ)) (w' : World σ),
      (∀ k, w'.reads ≤ k → w'.clock k < Time.max) →
      ((c.Get p w).cache.GetAll qs w').1 = qs.map (fun _ => (v, none)) ∧
      ((c.Get p w).cache.GetAll qs w').2.1 = (c.Get p w).cache ∧
      ((c.Get p w).cache.GetAll qs w').2.2.env = w'.env) ∧
    (∀ (q : Producer V E σ) (wi w' : World σ),
      wi.clock wi.reads ≤ w'.clock w'.reads → Monotone w'.clock →
      ((c.Get p w).cache.Invalidate wi).1.invocations q w' = 1) := by
  have httl : c.config.ttl = NoExpiration := by rw [hcfg, NewConfig_NoExpiration]
  have heq := refresh_unfold c p w v hstale hmono hp
  rw [expiresAt_NoExpiration _ _ httl] at heq
  rw [heq]
  refine ⟨rfl, rfl, rfl, rfl, ?_, ?_, ?_⟩
  · intro q w' hlt
    have hafter : (⟨v, Time.max, c.config⟩ : Cache V).expiresAt.After (w'.clock w'.reads) := hlt
    rw [hit_unfold _ q w' hafter]
    exact ⟨rfl, rfl, rfl, rfl, invocations_hit _ q w' hafter⟩
  · intro qs w' hlt
    exact GetAll_fresh (⟨v, Time.max, c.config⟩ : Cache V) qs w' hlt
  · intro q wi w' hlater hmono'
    exact invocations_of_le _ q w' hlater hmono'

theorem NoExpiration_never_expires_witness :
    (((⟨none, 0, ⟨NoExpiration⟩⟩ : Cache Nat).Get (succeedWith 1)
        ⟨fun _ => 0, 0, ()⟩).cache.Get (succeedWith 2)
        ⟨fun _ => 9000000000000000000, 0, ()⟩).value = some 1 :=
  ((NoExpiration_never_expires 5 (constRand 3) (⟨none, 0, ⟨NoExpiration⟩⟩ : Cache Nat)
    (succeedWith 1) ⟨fun _ => 0, 0, ()⟩ (some 1) (by decide) (by decide) monotone_const
    rfl).2.2.2.2.1 (succeedWith 2) ⟨fun _ => 9000000000000000000, 0, ()⟩ (by decide)).1

/-- C8 (the code at the failing input). `NewConfig(-2ns, 2ns)` with the draw `1` stores the
ttl `-1`, which is the `NoExpiration` sentinel: its `expiresAt()` is the latest representable
instant rather than `now + ttl + d`. -/
theorem NewConfig_jitter_hits_sentinel :
    (-2 : Duration) ≠ NoExpiration ∧ Duration.inRange (-2) ∧ Duration.inRange 2 ∧
    ((constRand 1).Int63n 2).1 = 1 ∧
    (NewConfig (-2) 2 (constRand 1)).1.ttl = NoExpiration ∧
    ((NewConfig (-2) 2 (constRand 1)).1.expiresAt (⟨fun _ => 0, 0, ()⟩ : World Unit)).1
      = Time.max ∧
    ((NewConfig (-2) 2 (constRand 1)).1.expiresAt (⟨fun _ => 0, 0, ()⟩ : World Unit)).1
      ≠ (0 : Time) + (-2) + 1 := by
  decide

/-- C9. Jitter window: for `ttl ≥ 0` and `jitter > 0` with `ttl + jitter` inside the `int64`
range, whatever the random draw the policy `NewConfig(ttl, jitter)` expires at an offset from
the clock reading that is at least `ttl` and less than `ttl + jitter`; every offset of that
window is produced by some draw; and for `ttl = 1s`, `jitter = 10s` the offsets in whole
seconds are exactly `1, ..., 10`. -/
theorem jitter_window {σ : Type} (ttl jitter : Duration)
    (httl : 0 ≤ ttl) (hj : 0 < jitter) (hrange : ttl + jitter ≤ 2 ^ 63 - 1) :
    (∀ (r : Rand) (w : World σ),
      ttl ≤ ((NewConfig ttl jitter r).1.expiresAt w).1 - w.clock w.reads ∧
      ((NewConfig ttl jitter r).1.expiresAt w).1 - w.clock w.reads < ttl + jitter) ∧
    (∀ (o : Duration) (w : World σ), ttl ≤ o → o < ttl + jitter →
      ∃ r : Rand, ((NewConfig ttl jitter r).1.expiresAt w).1 - w.clock w.reads = o) ∧
    (∀ (k : Int) (w : World σ),
      (∃ r : Rand, Int.tdiv (((NewConfig Second (10 * Second) r).1.expiresAt w).1
          - w.clock w.reads) Second = k) ↔ 1 ≤ k ∧ k ≤ 10) := by
  refine ⟨?_, ?_, ?_⟩
  · intro r w
    obtain ⟨hd0, hd1⟩ := Int63n_range r jitter hj
    rw [NewConfig_offset ttl jitter r w httl hj hrange]
    dsimp only [Duration, Time] at *
    constructor <;> omega
  · intro o w h1 h2
    have ho0 : (0 : Int) ≤ o - ttl := by dsimp only [Duration, Time] at *; omega
    have ho1 : o - ttl < jitter := by dsimp only [Duration, Time] at *; omega
    refine ⟨constRand (o - ttl).toNat, ?_⟩
    rw [NewConfig_offset ttl jitter _ w httl hj hrange, Int63n_onto jitter (o - ttl) ho0 ho1]
    dsimp only [Duration, Time] at *
    omega
  · intro k w
    have hS : (0 : Int) ≤ Second := by decide
    have hJ : (0 : Int) < 10 * Second := by decide
    have hR : Second + 10 * Second ≤ (2 : Int) ^ 63 - 1 := by decide
    constructor
    · rintro ⟨r, hr⟩
      obtain ⟨hd0, hd1⟩ := Int63n_range r (10 * Second) hJ
      rw [NewConfig_offset Second (10 * Second) r w hS hJ hR] at hr
      rw [Int.tdiv_eq_ediv (Int.add_nonneg hS hd0) hS] at hr
      generalize (r.Int63n (10 * Second)).1 = d at hr hd0 hd1
      unfold Second at hr hd1
      dsimp only [Duration, Time] at *
      omega
    · rintro ⟨h1, h2⟩
      have hk0 : (0 : Int) ≤ (k - 1) * Second := by unfold Second; omega
      have hk1 : (k - 1) * Second < 10 * Second := by unfold Second; omega
      refine ⟨constRand ((k - 1) * Second).toNat, ?_⟩
      rw [NewConfig_offset Second (10 * Second) _ w hS hJ hR,
        Int63n_onto (10 * Second) ((k - 1) * Second) hk0 hk1,
        Int.tdiv_eq_ediv (Int.add_nonneg hS hk0) hS]
      unfold Second
      dsimp only [Duration, Time] at *
      omega

theorem jitter_window_witness :
    (1000000000 : Int) ≤
      ((NewConfig 1000000000 10000000000 (constRand 12345678901)).1.expiresAt
        (⟨fun _ => 77, 0, ()⟩ : World Unit)).1 - 77 :=
  ((jitter_window 1000000000 10000000000 (by decide) (by decide) (by decide)).1
    (constRand 12345678901) (⟨fun _ => 77, 0, ()⟩ : World Unit)).1

/-- C10. NoExpiration ignores jitter: whatever the sign of `j`, `NewConfig(NoExpiration, j)`
leaves the random source untouched and is the policy `NewConfig(NoExpiration, 0)`; its
`expiresAt()` does not read the clock and is the one instant `Time.max`, which is representable
and strictly after every other representable instant. -/
theorem NoExpiration_ignores_jitter {σ : Type} (j : Duration) (r : Rand) (w : World σ) :
    NewConfig NoExpiration j r = ({ ttl := NoExpiration }, r) ∧
    NewConfig NoExpiration j r = NewConfig NoExpiration 0 r ∧
    (NewConfig NoExpiration j r).1.expiresAt w = (Time.max, w) ∧
    Time.representable Time.max ∧
    (∀ t : Time, Time.representable t → t ≠ Time.max → Time.max.After t) := by
  refine ⟨NewConfig_NoExpiration j r, ?_, ?_, by decide, ?_⟩
  · rw [NewConfig_NoExpiration, NewConfig_NoExpiration]
  · rw [NewConfig_NoExpiration]; exact expiresAt_NoExpiration _ w rfl
  · intro t ht hne
    exact lt_of_le_of_ne ht.2 hne

theorem NoExpiration_ignores_jitter_witness : Time.max.After 0 :=
  (NoExpiration_ignores_jitter (-7) (constRand 4) (⟨fun _ => 5, 0, ()⟩ : World Unit)).2.2.2.2
    0 (by decide) (by decide)

/-- C11. No jitter when the bound is not positive: for `ttl` other than the sentinel and
`jitter ≤ 0`, `NewConfig(ttl, jitter)` leaves the random source untouched, stores `ttl` as it
is, whatever the state of the random source, and the policy expires exactly `ttl` after the
clock reading. -/
theorem NewConfig_no_jitter {σ : Type} (ttl jitter : Duration) (r : Rand) (w : World σ)
    (httl : ttl ≠ NoExpiration) (hj : jitter ≤ 0) :
    NewConfig ttl jitter r = ({ ttl := ttl }, r) ∧
    (∀ r' : Rand, (NewConfig ttl jitter r').1 = (NewConfig ttl jitter r).1) ∧
    ((NewConfig ttl jitter r).1.expiresAt w).1 = w.clock w.reads + ttl := by
  have hnot : ¬ (ttl ≠ NoExpiration ∧ jitter > 0) := fun h => absurd h.2 (not_lt.mpr hj)
  have hcfg : ∀ r' : Rand, NewConfig ttl jitter r' = ({ ttl := ttl }, r') := by
    intro r'
    unfold NewConfig
    rw [if_neg hnot]
  refine ⟨hcfg r, fun r' => by rw [hcfg r', hcfg r], ?_⟩
  rw [hcfg r, expiresAt_finite _ w httl]
  rfl

theorem NewConfig_no_jitter_witness :
    ((NewConfig (100 * Millisecond) 0 (constRand 5)).1.expiresAt
      (⟨fun _ => 7, 0, ()⟩ : World Unit)).1 = 7 + 100 * Millisecond :=
  (NewConfig_no_jitter (100 * Millisecond) 0 (constRand 5) (⟨fun _ => 7, 0, ()⟩ : World Unit)
    (by decide) (by decide)).2.2

/-- C12. Jitter is fixed per policy: `expiresAt()` of a constructed policy has no access to the
random source; its result is determined by the stored ttl and the clock reading, and it leaves
the environment alone. For a stored ttl other than the sentinel the offset from the clock
reading is the stored ttl at every reading, so equal at any two readings; and `Get` never
changes the policy of a cell, so every refresh uses that same ttl. -/
theorem jitter_fixed {V E σ τ : Type} (c : Config) (w : World σ) (w' : World τ) :
    (w.clock w.reads = w'.clock w'.reads → (c.expiresAt w).1 = (c.expiresAt w').1) ∧
    (c.expiresAt w).2.env = w.env ∧
    (c.ttl ≠ NoExpiration →
      (c.expiresAt w).1 - w.clock w.reads = c.ttl ∧
      (c.expiresAt w).1 - w.clock w.reads = (c.expiresAt w').1 - w'.clock w'.reads) ∧
    (∀ (cell : Cache V) (p : Producer V E σ), cell.config = c →
      (cell.Get p w).cache.config = c) := by
  refine ⟨?_, expiresAt_env c w, ?_, ?_⟩
  · intro h
    by_cases hne : c.ttl = NoExpiration
    · rw [expiresAt_NoExpiration c w hne, expiresAt_NoExpiration c w' hne]
    · rw [expiresAt_finite c w hne, expiresAt_finite c w' hne, h]
  · intro hne
    rw [expiresAt_finite c w hne, expiresAt_finite c w' hne]
    simp only [Time.Add]
    constructor
    · exact add_sub_cancel_left _ _
    · rw [add_sub_cancel_left, add_sub_cancel_left]
  · intro cell p hc
    rw [Get_config, hc]

theorem jitter_fixed_witness :
    ((⟨1500⟩ : Config).expiresAt (⟨fun _ => 10, 0, ()⟩ : World Unit)).1 - 10
      = ((⟨1500⟩ : Config).expiresAt (⟨fun k => 1000 + k, 4, ()⟩ : World Unit)).1 - 1004 :=
  ((@jitter_fixed Nat String Unit Unit ⟨1500⟩ ⟨fun _ => 10, 0, ()⟩
    ⟨fun k => 1000 + k, 4, ()⟩).2.2.1 (by decide)).2

/-- C13. Failures are retried on every call: from a cell stale at the first clock reading,
under a non-decreasing clock, consecutive `Get` calls whose producers fail each invoke their
producer (each exactly once, in order: the environment ends as after invoking each in turn,
and the count of invocations is the number of calls) and each return `nil` with that producer's
own error; the cell stays as it was, so a following `Get` whose producer succeeds with `v`
invokes it and returns `(v, nil)` at once. -/
theorem failures_retried {V E σ : Type} (c : Cache V) (ps : List (Producer V E σ))
    (q : Producer V E σ) (w : World σ) (v : Option V)
    (hstale : ¬ c.expiresAt.After (w.clock w.reads)) (hmono : Monotone w.clock)
    (hfail : ∀ r ∈ (invokeEach ps w.env).1, r.2 ≠ none)
    (hq : (q (invokeEach ps w.env).2).1 = (v, none)) :
    (c.GetAll ps w).1 = (invokeEach ps w.env).1.map (fun r => (none, r.2)) ∧
    (c.GetAll ps w).2.2.env = (invokeEach ps w.env).2 ∧
    (c.GetAll (ps.map counted)
      { clock := w.clock, reads := w.reads, env := (w.env, 0) }).2.2.env.2 = ps.length ∧
    ((c.GetAll ps w).2.1.Get q (c.GetAll ps w).2.2).value = v ∧
    ((c.GetAll ps w).2.1.Get q (c.GetAll ps w).2.2).err = none ∧
    (c.GetAll ps w).2.1.invocations q (c.GetAll ps w).2.2 = 1 := by
  have hst : c.expiresAt ≤ w.clock w.reads := not_lt.mp hstale
  have hrun := run_stale c.config (ps.map Op.get) c w rfl hmono hst
    (by rw [producersOf_gets]; exact fun r hr h0 => absurd h0 (hfail r hr))
  have hcnt := run_stale c.config ((ps.map counted).map Op.get) c
    { clock := w.clock, reads := w.reads, env := (w.env, 0) } rfl hmono hst
    (by
      rw [producersOf_gets, invokeEach_counted]
      exact fun r hr h0 => absurd h0 (hfail r hr))
  rw [producersOf_gets] at hrun hcnt
  rw [← GetAll_eq_run] at hrun hcnt
  obtain ⟨hres, henv, hclock, _, hexp⟩ := hrun
  have hmono' : Monotone (c.GetAll ps w).2.2.clock := by rw [hclock]; exact hmono
  have hst' : ¬ (c.GetAll ps w).2.1.expiresAt.After
      ((c.GetAll ps w).2.2.clock (c.GetAll ps w).2.2.reads) := by
    rw [hclock]; exact not_lt.mpr hexp
  have hq' : (q (c.GetAll ps w).2.2.env).1 = (v, none) := by rw [henv]; exact hq
  refine ⟨?_, henv, ?_, ?_, ?_, ?_⟩
  · rw [hres]
    exact List.map_congr_left (fun r hr => outcome_of_failed r (hfail r hr))
  · rw [hcnt.2.1, invokeEach_counted]
    exact Nat.zero_add _
  · rw [refresh_unfold _ q _ v hst' hmono' hq']
  · rw [refresh_unfold _ q _ v hst' hmono' hq']
  · exact invocations_stale _ q _ hst' (stale_next _ _ hst' hmono')

theorem failures_retried_witness :
    ((⟨some 3, 10, ⟨5⟩⟩ : Cache Nat).GetAll
      [fun s : Unit => ((some 4, some "first"), s), fun s : Unit => ((none, some "second"), s)]
      ⟨fun k => 10 + k, 0, ()⟩).1 = [(none, some "first"), (none, some "second")] :=
  (failures_retried (⟨some 3, 10, ⟨5⟩⟩ : Cache Nat)
    [fun s : Unit => ((some 4, some "first"), s), fun s : Unit => ((none, some "second"), s)]
    (fun s : Unit => ((some 6, none), s)) ⟨fun k => 10 + k, 0, ()⟩ (some 6)
    (by decide) (fun a b h => Int.add_le_add_left (Int.ofNat_le.mpr h) 10)
    (by decide) rfl).1

/-- C14. The cell never synthesizes an error: if `Get(p)` returns a non-nil error `e` then `p`
was invoked in that call, exactly once, and returned exactly `e`; when `p` is not invoked, or
returns a nil error, `Get` returns a nil error. No assumption on the cell or the clock. -/
theorem Get_error_is_producers {V E σ : Type} (c : Cache V) (p : Producer V E σ)
    (w : World σ) :
    (∀ e : E, (c.Get p w).err = some e →
      c.invocations p w = 1 ∧ (p w.env).1.2 = some e ∧ (c.Get p w).value = none) ∧
    (c.invocations p w = 0 → (c.Get p w).err = none) ∧
    ((p w.env).1.2 = none → (c.Get p w).err = none) ∧
    (c.invocations p w = 0 ∨ c.invocations p w = 1) := by
  by_cases h1 : c.expiresAt.After (w.clock w.reads)
  · rw [hit_unfold c p w h1, invocations_hit c p w h1]
    exact ⟨fun e he => absurd he (by simp), fun _ => rfl, fun _ => rfl, Or.inl rfl⟩
  · by_cases h2 : c.expiresAt.After (w.clock (w.reads + 1))
    · rw [recheck_unfold c p w h1 h2, invocations_recheck c p w h1 h2]
      exact ⟨fun e he => absurd he (by simp), fun _ => rfl, fun _ => rfl, Or.inl rfl⟩
    · rw [invocations_stale c p w h1 h2]
      cases hp : (p w.env).1.2 with
      | none =>
        rw [Get_stale_ok c p w h1 h2 hp]
        exact ⟨fun e he => absurd he (by simp), fun _ => rfl, fun _ => rfl, Or.inr rfl⟩
      | some e' =>
        rw [Get_stale_err c p w e' h1 h2 hp]
        refine ⟨fun e he => ⟨rfl, he, rfl⟩, fun h => absurd h (by decide),
          fun h => absurd h (by simp), Or.inr rfl⟩

theorem Get_error_is_producers_witness :
    (⟨some 3, 10, ⟨5⟩⟩ : Cache Nat).invocations
      (fun s : Unit => ((some 5, some "error"), s)) ⟨fun _ => 10, 0, ()⟩ = 1 :=
  ((Get_error_is_producers (⟨some 3, 10, ⟨5⟩⟩ : Cache Nat)
      (fun s : Unit => ((some 5, some "error"), s)) ⟨fun _ => 10, 0, ()⟩).1 "error"
      (by decide)).1

/-- C15. At most one producer in flight: start any number of goroutines, each about to call
`Get` (with any producer) or `Invalidate` on one cell, the lock free, and let them run in any
interleaving. In every state reached, a goroutine whose producer has been called and has not
returned holds the lock of the cell, so no two goroutines are inside their producers at once. -/
theorem one_producer_in_flight {V E σ : Type} (c : Cache V) (w : World σ)
    (calls : Nat → Op V E σ) (sched : List Nat) :
    (∀ i, (((Sys.init c w calls).run sched).routines i).pc = Pc.inProducer →
      ((Sys.init c w calls).run sched).holder = some i) ∧
    (∀ i j, (((Sys.init c w calls).run sched).routines i).pc = Pc.inProducer →
      (((Sys.init c w calls).run sched).routines j).pc = Pc.inProducer → i = j) := by
  have hinv := run_LockInv sched (Sys.init c w calls) (LockInv_init c w calls)
  have hown : ∀ i, (((Sys.init c w calls).run sched).routines i).pc = Pc.inProducer →
      ((Sys.init c w calls).run sched).holder = some i := by
    intro i hi
    exact (hinv i).mp (by rw [hi]; rfl)
  refine ⟨hown, ?_⟩
  intro i j hi hj
  have h := (hown i hi).symm.trans (hown j hj)
  exact Option.some.inj h

theorem one_producer_in_flight_witness :
    (testLock.run [0, 0, 0, 1, 1]).holder = some 0 ∧
    ((testLock.run [0, 0, 0, 1, 1]).routines 1).pc = Pc.atLock :=
  ⟨(one_producer_in_flight _ _ _ [0, 0, 0, 1, 1]).1 0 (by decide), by decide⟩

/-- C16. Thundering-herd collapse: in a state reached by some interleaving, let goroutine `i`
be in `Get` past a fast-path check that found the cell stale, waiting at `Lock()`, the lock
being free (as after another `Get` has stored its value and unlocked). It takes the lock and,
after any lines run by the other goroutines, makes the check of line 67. If the cell is fresh
at the clock reading of that check, `i` has then returned the held value with a nil error: the
cell and the environment are as they were, so its producer has not run, and the lock is free
again. If the cell is stale at that reading, `i` is in its producer, holding the lock. What
decides is the cell as read under the lock, not the earlier unlocked check. -/
theorem herd_collapse {V E σ : Type} (c : Cache V) (w : World σ) (calls : Nat → Op V E σ)
    (sched : List Nat) (s : Sys V E σ) (i : Nat) (p : Producer V E σ) (mid : List Nat)
    (hs : s = (Sys.init c w calls).run sched)
    (hcall : (s.routines i).call = Op.get p) (hpc : (s.routines i).pc = Pc.atLock)
    (hfree : s.holder = none) (hmid : ∀ j ∈ mid, j ≠ i) :
    (s.cell.expiresAt.After (s.world.clock ((s.step i).run mid).world.reads) →
      ((((s.step i).run mid).step i).routines i).pc = Pc.done s.cell.value none ∧
      (((s.step i).run mid).step i).cell = s.cell ∧
      (((s.step i).run mid).step i).world.env = s.world.env ∧
      (((s.step i).run mid).step i).holder = none) ∧
    (¬ s.cell.expiresAt.After (s.world.clock ((s.step i).run mid).world.reads) →
      ((((s.step i).run mid).step i).routines i).pc = Pc.inProducer ∧
      (((s.step i).run mid).step i).cell = s.cell ∧
      (((s.step i).run mid).step i).holder = some i) := by
  have hinv : s.LockInv := by
    rw [hs]; exact run_LockInv sched _ (LockInv_init c w calls)
  have hinv1 : (s.step i).LockInv := step_LockInv s i hinv
  have h1 := step_atLock s i p hcall hpc hfree
  have hcall1 : ((s.step i).routines i).call = Op.get p := by
    rw [h1]; simp only [Sys.goto, Function.update_same]; exact hcall
  have hpc1 : ((s.step i).routines i).pc = Pc.recheck := by
    rw [h1]; simp only [Sys.goto, Function.update_same]
  have hcell1 : (s.step i).cell = s.cell := by rw [h1]; rfl
  have hworld1 : (s.step i).world = s.world := by rw [h1]; rfl
  have hhold1 : (s.step i).holder = some i := by rw [h1]
  obtain ⟨b1, b2, b3, _, b5, b6⟩ := run_others i mid (s.step i) hinv1 hhold1 hmid
  rw [hcell1] at b1
  rw [hworld1] at b2 b3
  have hcall2 : (((s.step i).run mid).routines i).call = Op.get p := by rw [b6]; exact hcall1
  have hpc2 : (((s.step i).run mid).routines i).pc = Pc.recheck := by rw [b6]; exact hpc1
  constructor
  · intro hfresh
    have hfresh2 : ((s.step i).run mid).cell.expiresAt.After
        (((s.step i).run mid).world.clock ((s.step i).run mid).world.reads) := by
      rw [b1, b3]; exact hfresh
    rw [step_recheck _ i p hcall2 hpc2, if_pos hfresh2]
    simp only [Sys.goto, Function.update_same, World.Now, b1, b2, and_self]
  · intro hstale
    have hstale2 : ¬ ((s.step i).run mid).cell.expiresAt.After
        (((s.step i).run mid).world.clock ((s.step i).run mid).world.reads) := by
      rw [b1, b3]; exact hstale
    rw [step_recheck _ i p hcall2 hpc2, if_neg hstale2]
    simp only [Sys.goto, Function.update_same, b1, b5, and_self]

theorem herd_collapse_witness :
    (((testLock.run [0, 0, 0, 1, 1, 0, 0, 0, 0]).step 1).step 1).world.env.2 = 1 ∧
    ((((testLock.run [0, 0, 0, 1, 1, 0, 0, 0, 0]).step 1).step 1).routines 1).pc
      = Pc.done (some 1) none :=
  ⟨by decide,
    ((herd_collapse _ _ _ [0, 0, 0, 1, 1, 0, 0, 0, 0]
      (testLock.run [0, 0, 0, 1, 1, 0, 0, 0, 0]) 1 (counted (succeedWith 2)) [] rfl rfl
      (by decide) (by decide) (fun _ h => absurd h (List.not_mem_nil _))).1
      (by decide)).1⟩

/-- C17. STALE to FRESH only by a successful producer call: under a non-decreasing clock, if
the cell is stale at the reading at which a call (`Get` with any producer, or `Invalidate`)
starts and fresh at a later reading `k` once the call is done, then the call was a `Get` whose
producer was invoked (exactly once) and returned a nil error. From a stale cell a `Get` whose
producer fails leaves the cell stale, and `Invalidate` leaves any cell stale. -/
theorem stale_to_fresh_only_by_success {V E σ : Type} (c : Cache V) (op : Op V E σ)
    (w : World σ) (k : Nat)
    (hmono : Monotone w.clock) (hstale : ¬ c.expiresAt.After (w.clock w.reads))
    (hk : w.reads ≤ k) :
    ((c.apply op w).2.1.expiresAt.After (w.clock k) →
      ∃ p : Producer V E σ, op = Op.get p ∧ c.invocations p w = 1 ∧ (p w.env).1.2 = none) ∧
    (∀ (p : Producer V E σ) (e : E), op = Op.get p → (p w.env).1.2 = some e →
      (c.apply op w).2.1 = c ∧ ¬ (c.apply op w).2.1.expiresAt.After (w.clock k)) ∧
    (∀ c' : Cache V, ¬ (c'.apply (@Op.invalidate V E σ) w).2.1.expiresAt.After (w.clock k)) := by
  have h2 := stale_next c w hstale hmono
  have hle : c.expiresAt ≤ w.clock k := le_trans (not_lt.mp hstale) (hmono hk)
  refine ⟨?_, ?_, ?_⟩
  · intro hfresh
    cases op with
    | invalidate => exact absurd hfresh (not_lt.mpr (hmono hk))
    | get p =>
      refine ⟨p, rfl, invocations_stale c p w hstale h2, ?_⟩
      cases hp : (p w.env).1.2 with
      | none => rfl
      | some e =>
        simp only [Cache.apply] at hfresh
        rw [Get_stale_err c p w e hstale h2 hp] at hfresh
        exact absurd hfresh (not_lt.mpr hle)
  · intro p e hop hp
    subst hop
    simp only [Cache.apply]
    rw [Get_stale_err c p w e hstale h2 hp]
    exact ⟨rfl, not_lt.mpr hle⟩
  · intro c'
    exact not_lt.mpr (hmono hk)

theorem stale_to_fresh_only_by_success_witness :
    ∃ p : Producer Nat String Unit, Op.get (succeedWith 1) = Op.get p ∧
      (⟨none, 10, ⟨5⟩⟩ : Cache Nat).invocations p ⟨fun _ => 10, 0, ()⟩ = 1 ∧
      (p ()).1.2 = none :=
  (stale_to_fresh_only_by_success (⟨none, 10, ⟨5⟩⟩ : Cache Nat) (Op.get (succeedWith 1))
    ⟨fun _ => 10, 0, ()⟩ 3 monotone_const (by decide) (by decide)).1 (by decide)

/-- C18. Value provenance: take a cell built by `New` through any run of `Get` and
`Invalidate` calls under a non-decreasing clock, the producers logging what they return (which
changes neither the results nor the cell). In the state reached, if no invocation has
succeeded the cell holds the initial empty value and is stale at the current clock reading;
otherwise it holds exactly the value returned by the most recent successful invocation. Hence
every `(v, nil)` returned by a `Get` of the run is a pair some producer returned, and a held
value is always one returned with a nil error. -/
theorem value_provenance {V E σ : Type} (config : Config) (w0 : World σ)
    (ops : List (Op V E σ)) (hmono : Monotone w0.clock) :
    (runLogged config w0 ops).1 =
      ((@New V σ config w0).1.run ops (@New V σ config w0).2).1 ∧
    (runLogged config w0 ops).2.1 =
      ((@New V σ config w0).1.run ops (@New V σ config w0).2).2.1 ∧
    (lastSuccess (runLogged config w0 ops).2.2.env.2 = none →
      (runLogged config w0 ops).2.1.value = none ∧
      ¬ (runLogged config w0 ops).2.1.expiresAt.After
          ((runLogged config w0 ops).2.2.clock (runLogged config w0 ops).2.2.reads)) ∧
    (∀ v : Option V, lastSuccess (runLogged config w0 ops).2.2.env.2 = some v →
      (runLogged config w0 ops).2.1.value = v) ∧
    (∀ v : Option V, (v, none) ∈ (runLogged config w0 ops).1 →
      (v, none) ∈ (runLogged config w0 ops).2.2.env.2) ∧
    (∀ x : V, (runLogged config w0 ops).2.1.value = some x →
      (some x, none) ∈ (runLogged config w0 ops).2.2.env.2) := by
  have hsim := run_logged_sim ops (@New V σ config w0).1 (@New V σ config w0).2
    (@New V (σ × List (Option V × Option E)) config
      { clock := w0.clock, reads := w0.reads, env := (w0.env, []) }).2 rfl rfl rfl
  have hP0 : Provenance
      (@New V (σ × List (Option V × Option E)) config
        { clock := w0.clock, reads := w0.reads, env := (w0.env, []) }).1
      (@New V (σ × List (Option V × Option E)) config
        { clock := w0.clock, reads := w0.reads, env := (w0.env, []) }).2 :=
    ⟨fun _ => ⟨rfl, hmono (Nat.le_succ w0.reads)⟩, fun v hv => absurd hv (by simp [New, World.Now, lastSuccess])⟩
  obtain ⟨⟨p1, p2⟩, _, _, pres⟩ := run_provenance ops _ _ hmono hP0
  refine ⟨hsim.1, hsim.2.1, ?_, p2, pres, ?_⟩
  · intro h
    exact ⟨(p1 h).1, not_lt.mpr (p1 h).2⟩
  · intro x hx
    cases hl : lastSuccess (runLogged config w0 ops).2.2.env.2 with
    | none =>
      have h0 := (p1 hl).1
      unfold runLogged at hx
      rw [h0] at hx
      exact absurd hx (by simp)
    | some v =>
      have hv := p2 v hl
      unfold runLogged at hx
      rw [hv] at hx
      rw [← hx]
      exact lastSuccess_mem _ _ hl

theorem value_provenance_witness :
    (runLogged (⟨100⟩ : Config) (⟨fun k => 10 * k, 0, ()⟩ : World Unit)
      [Op.get (fun s => ((some 9, some "error"), s)), Op.get (succeedWith 1), Op.invalidate,
        Op.get (fun s => ((some 7, some "error"), s))]).2.1.value = some 1 :=
  (value_provenance (⟨100⟩ : Config) (⟨fun k => 10 * k, 0, ()⟩ : World Unit)
    [Op.get (fun s => ((some 9, some "error"), s)), Op.get (succeedWith 1), Op.invalidate,
      Op.get (fun s => ((some 7, some "error"), s))]
    (fun a b h => Int.mul_le_mul_of_nonneg_left (Int.ofNat_le.mpr h) (by decide))).2.2.2.1
    (some 1) (by decide)

/-- C19. Non-positive finite ttl disables caching: for a cell built by `New` with a policy
whose stored ttl is `≤ 0` and not the sentinel, under a non-decreasing clock every `Get` of
every run of calls (with `Invalidate` calls anywhere in between) invokes its producer, exactly
once and in order, and returns what that producer gave; after a refresh the cell is fresh at
no clock reading from that of the refresh on. With the stored ttl `-1`, by contrast, a refresh
sets `expiresAt` to `Time.max`, which no representable clock reading is after, and a `Get` at
any reading before it serves the cached value without invoking its producer. -/
theorem nonpositive_ttl_disables_caching {V E σ : Type} (config : Config) (w0 : World σ)
    (ops : List (Op V E σ))
    (hmono : Monotone w0.clock) (hle : config.ttl ≤ 0) (hne : config.ttl ≠ NoExpiration) :
    ((@New V σ config w0).1.run ops (@New V σ config w0).2).1 =
      (invokeEach (producersOf ops) w0.env).1.map outcome ∧
    ((@New V σ config w0).1.run ops (@New V σ config w0).2).2.2.env =
      (invokeEach (producersOf ops) w0.env).2 ∧
    ((@New V (σ × Nat) config { clock := w0.clock, reads := w0.reads, env := (w0.env, 0) }).1.run
      (ops.map Op.counted)
      (@New V (σ × Nat) config
        { clock := w0.clock, reads := w0.reads, env := (w0.env, 0) }).2).2.2.env.2
      = (producersOf ops).length ∧
    (∀ (c : Cache V) (p : Producer V E σ) (w : World σ), c.config = config →
      ¬ c.expiresAt.After (w.clock w.reads) → Monotone w.clock → (p w.env).1.2 = none →
      ∀ k, w.reads + 2 ≤ k → ¬ (c.Get p w).cache.expiresAt.After (w.clock k)) ∧
    (∀ (c : Cache V) (p : Producer V E σ) (w : World σ), c.config.ttl = -1 →
      ¬ c.expiresAt.After (w.clock w.reads) → Monotone w.clock → (p w.env).1.2 = none →
      (c.Get p w).cache.expiresAt = Time.max ∧
      (∀ t : Time, Time.representable t → ¬ t.After Time.max) ∧
      (∀ (q : Producer V E σ) (w' : World σ), w'.clock w'.reads < Time.max →
        (c.Get p w).cache.invocations q w' = 0 ∧
        ((c.Get p w).cache.Get q w').value = (p w.env).1.1 ∧
        ((c.Get p w).cache.Get q w').err = none)) := by
  refine ⟨?_, ?_, ?_, ?_, ?_⟩
  · exact (run_stale config ops (@New V σ config w0).1 (@New V σ config w0).2 rfl hmono
      (hmono (Nat.le_succ w0.reads)) (fun _ _ _ => ⟨hle, hne⟩)).1
  · exact (run_stale config ops (@New V σ config w0).1 (@New V σ config w0).2 rfl hmono
      (hmono (Nat.le_succ w0.reads)) (fun _ _ _ => ⟨hle, hne⟩)).2.1
  · have h := (run_stale config (ops.map Op.counted)
      (@New V (σ × Nat) config { clock := w0.clock, reads := w0.reads, env := (w0.env, 0) }).1
      (@New V (σ × Nat) config { clock := w0.clock, reads := w0.reads, env := (w0.env, 0) }).2
      rfl hmono (hmono (Nat.le_succ w0.reads)) (fun _ _ _ => ⟨hle, hne⟩)).2.1
    rw [h, producersOf_counted]
    simp only [New, World.Now]
    rw [invokeEach_counted]
    exact Nat.zero_add _
  · intro c p w hc hst hm hp k hk
    have hne' : c.config.ttl ≠ NoExpiration := by rw [hc]; exact hne
    rw [Get_stale_ok c p w hst (stale_next c w hst hm) hp, expiresAt_finite _ _ hne']
    have h1 := hm hk
    have h2 : c.config.ttl ≤ 0 := by rw [hc]; exact hle
    simp only [Time.After, Time.Add, not_lt]
    dsimp only [Duration, Time] at *
    omega
  · intro c p w httl hst hm hp
    have hexp : (c.Get p w).cache.expiresAt = Time.max := by
      rw [Get_stale_ok c p w hst (stale_next c w hst hm) hp, expiresAt_NoExpiration _ _ httl]
    have hval : (c.Get p w).cache.value = (p w.env).1.1 := by
      rw [Get_stale_ok c p w hst (stale_next c w hst hm) hp]
    refine ⟨hexp, fun t ht => not_lt.mpr ht.2, ?_⟩
    intro q w' hlt
    have hafter : (c.Get p w).cache.expiresAt.After (w'.clock w'.reads) := by
      rw [hexp]; exact hlt
    refine ⟨invocations_hit _ q w' hafter, ?_⟩
    rw [hit_unfold _ q w' hafter]
    exact ⟨hval, rfl⟩

theorem nonpositive_ttl_disables_caching_witness :
    ((@New Nat Unit (NewConfig (-2) 0 (constRand 0)).1 ⟨fun _ => 5, 0, ()⟩).1.run
      [Op.get (succeedWith 1), Op.get (succeedWith 2), Op.invalidate, Op.get (succeedWith 3)]
      (@New Nat Unit (NewConfig (-2) 0 (constRand 0)).1 ⟨fun _ => 5, 0, ()⟩).2).1
      = [(some 1, none), (some 2, none), (some 3, none)] ∧
    ((@New Nat Unit (NewConfig 0 0 (constRand 0)).1 ⟨fun _ => 5, 0, ()⟩).1.run
      [Op.get (succeedWith 1), Op.get (succeedWith 2)]
      (@New Nat Unit (NewConfig 0 0 (constRand 0)).1 ⟨fun _ => 5, 0, ()⟩).2).1
      = [(some 1, none), (some 2, none)] :=
  ⟨(nonpositive_ttl_disables_caching (NewConfig (-2) 0 (constRand 0)).1 ⟨fun _ => 5, 0, ()⟩
      [Op.get (succeedWith 1), Op.get (succeedWith 2), Op.invalidate, Op.get (succeedWith 3)]
      monotone_const (by decide) (by decide)).1,
    (nonpositive_ttl_disables_caching (NewConfig 0 0 (constRand 0)).1 ⟨fun _ => 5, 0, ()⟩
      [Op.get (succeedWith 1), Op.get (succeedWith 2)]
      monotone_const (by decide) (by decide)).1⟩

end cache
